import Mathlib

/-!
Shallow embedding of the go-fsk modem (`fsk/fsk.go`, `fsk/core`), the duplex
chat session (`fsk/realtime/chat.go`) and the multi-channel registry
(`fsk/channels.go`).

Conventions of the embedding:
* Go `float64` / `float32` sample and correlation arithmetic is modelled over
  the real numbers `ℝ`; configuration numerics (`BaseFreq`, `FreqSpacing`,
  `BaudRate`) are modelled over `ℚ` so that the derived quantities
  (symbol period, frequency table) stay exact and computable.
* Go `int` is modelled as `ℤ`/`ℕ`; the conversion `int(x)` of a `float64`
  truncates toward zero, modelled by `ratTrunc`.
* Bytes are `ℕ` values (`< 256` where a claim needs it).
* The fallible audio-device calls (`NewChatSession`, `ChatSession.Start`)
  are external; their success/failure is an oracle Boolean input.
-/

open Real

/-- Mirror of `core.Config` / `fsk.Config`. -/
structure Config where
  baseFreq : ℚ
  freqSpacing : ℚ
  order : ℕ
  baudRate : ℚ
  sampleRate : ℤ
deriving DecidableEq

/-- Mirror of `DefaultConfig()`. -/
def defaultConfig : Config :=
  { baseFreq := 1000, freqSpacing := 200, order := 2, baudRate := 100, sampleRate := 48000 }

/-- Go's `int(x)` conversion for a `float64` value: truncation toward zero. -/
def ratTrunc (q : ℚ) : ℤ := if 0 ≤ q then ⌊q⌋ else ⌈q⌉

/-- Mirror of `core.Modem` / `fsk.Modem`: a configuration plus the derived
symbol period and frequency table, and one phase accumulator per frequency. -/
structure Modem where
  config : Config
  symbolPeriod : ℤ
  frequencies : List ℚ
  phase : List ℝ

/-- Mirror of `core.New` / `fsk.New`: `symbolPeriod = int(SampleRate/BaudRate)`,
`frequencies[i] = BaseFreq + i*FreqSpacing` for `i < 1 << Order`, phases zero. -/
def mkModem (config : Config) : Modem :=
  { config := config
    symbolPeriod := ratTrunc ((config.sampleRate : ℚ) / config.baudRate)
    frequencies := (List.range (2 ^ config.order)).map
      (fun i : ℕ => config.baseFreq + (i : ℚ) * config.freqSpacing)
    phase := List.replicate (2 ^ config.order) (0 : ℝ) }

/-- Bit `k` (MSB-first, `k < 8`) of a byte, as in `data[byteIdx]&(1<<bitInByte)`. -/
def byteBit (b : ℕ) (k : ℕ) : ℕ := b / 2 ^ (7 - k) % 2

/-- Bit `t` of the whole data stream, MSB-first inside each byte
(`byteIdx = t/8`, `bitInByte = 7 - t%8`); `0` past the end of the data. -/
def dataBit (data : List ℕ) (t : ℕ) : ℕ := byteBit (data.getD (t / 8) 0) (t % 8)

/-- The `order`-bit symbol number `j` extracted by `Encode`'s bit loop:
`symbol |= bit << (order-1-b)` for the bits `t = j*order + b`. -/
def symbolAt (order : ℕ) (data : List ℕ) (j : ℕ) : ℕ :=
  ((List.range order).map (fun b => dataBit data (j * order + b) * 2 ^ (order - 1 - b))).sum

/-- `Encode`'s `symbolCount`: ceiling division `(totalBits + order - 1) / order`. -/
def encSymbolCount (order : ℕ) (len : ℕ) : ℕ := (8 * len + order - 1) / order

/-- Bit `b` (MSB-first among `order` bits) of a detected symbol, as read by
`Decode`'s reassembly loop `symbol&(1<<(order-1-bit))`. -/
def symBit (order : ℕ) (s : ℕ) (b : ℕ) : ℕ := s / 2 ^ (order - 1 - b) % 2

/-- `Decode`'s symbol-to-byte reassembly: `byteCount = (sc*order + 7) / 8`
zeroed bytes, then bit `t = j*order + b` of the stream (while `t < sc*order`)
is placed at `output[t/8]`, position `7 - t%8`. -/
def bytesOfSymbols (order sc : ℕ) (symbols : List ℕ) : List ℕ :=
  (List.range ((sc * order + 7) / 8)).map (fun i =>
    ((List.range 8).map (fun k =>
      if 8 * i + k < sc * order then
        symBit order (symbols.getD ((8 * i + k) / order) 0) ((8 * i + k) % order) * 2 ^ (7 - k)
      else 0)).sum)

/-- One step of the phase accumulator: `phase += inc; if phase >= 2π { phase -= 2π }`. -/
noncomputable def wrapAdd (inc p : ℝ) : ℝ :=
  if 2 * π ≤ p + inc then p + inc - 2 * π else p + inc

/-- The inner sample loop of `Encode` for one symbol: emits `n` samples
`0.5*sin(phase)` from the running phase accumulator, returning the samples
and the final accumulator value. -/
noncomputable def runSymbol (inc : ℝ) : ℕ → ℝ → List ℝ × ℝ
  | 0, p => ([], p)
  | n + 1, p =>
    let rest := runSymbol inc n (wrapAdd inc p)
    (0.5 * Real.sin p :: rest.1, rest.2)

/-- The per-sample phase increment `2π*f/SampleRate`. -/
noncomputable def phaseInc (sampleRate : ℤ) (freq : ℚ) : ℝ :=
  2 * π * (freq : ℝ) / (sampleRate : ℝ)

/-- The body of `Encode`'s outer symbol loop: look up the symbol's frequency,
run the sample loop from that frequency's phase accumulator, append the
samples and store the updated accumulator. -/
noncomputable def encodeStep (m : Modem) (data : List ℕ) (acc : List ℝ × List ℝ) (j : ℕ) :
    List ℝ × List ℝ :=
  let s := symbolAt m.config.order data j
  let inc := phaseInc m.config.sampleRate (m.frequencies.getD s 0)
  let r := runSymbol inc m.symbolPeriod.toNat (acc.2.getD s 0)
  (acc.1 ++ r.1, acc.2.set s r.2)

/-- `Encode`'s full loop: fold `encodeStep` over the `symbolCount` symbols,
starting from an empty output and the modem's current phase accumulators. -/
noncomputable def encodeRun (m : Modem) (data : List ℕ) : List ℝ × List ℝ :=
  (List.range (encSymbolCount m.config.order data.length)).foldl (encodeStep m data) ([], m.phase)

/-- Mirror of `Modem.Encode`: returns the sample buffer and the modem with its
phase accumulators updated (the only state `Encode` mutates). -/
noncomputable def Modem.Encode (m : Modem) (data : List ℕ) : List ℝ × Modem :=
  let r := encodeRun m data
  (r.1, { m with phase := r.2 })

/-- One step of `correlateWithFrequency`'s loop: accumulate
`sample * sin(phase)` and advance the wrapped reference phase. -/
noncomputable def corrStep (inc : ℝ) (acc : ℝ × ℝ) (s : ℝ) : ℝ × ℝ :=
  (acc.1 + s * Real.sin acc.2, wrapAdd inc acc.2)

/-- Mirror of `Modem.correlateWithFrequency`: reference phase restarts at `0`,
result is `|sum| / len(signal)`. -/
noncomputable def correlateWithFrequency (sampleRate : ℤ) (signal : List ℝ) (freq : ℚ) : ℝ :=
  |(signal.foldl (corrStep (phaseInc sampleRate freq)) (0, 0)).1| / (signal.length : ℝ)

/-- One comparison of `Decode`'s maximum search: replace the running best
`(maxCorrelation, detectedSymbol)` only on a strict `correlation > max`. -/
noncomputable def scanStep (best : ℝ × ℕ) (p : ℕ × ℝ) : ℝ × ℕ :=
  if best.1 < p.2 then (p.2, p.1) else best

/-- Mirror of `Decode`'s maximum-correlation scan:
`maxCorrelation := -1.0; detectedSymbol := 0`, then for each index, replace on
a strict `>` comparison only. -/
noncomputable def selectIdx (corrs : List ℝ) : ℕ :=
  (corrs.enum.foldl scanStep (-1, 0)).2

/-- The detected symbol of one decode window: index of the table frequency
with the highest correlation against the window. -/
noncomputable def decodeWindowSymbol (m : Modem) (window : List ℝ) : ℕ :=
  selectIdx (m.frequencies.map (fun f => correlateWithFrequency m.config.sampleRate window f))

/-- Mirror of `Modem.Decode`: `symbolCount = len(signal)/symbolPeriod` windows
(`nil` result when zero), per-window correlation detection, then MSB-first
reassembly into `(symbolCount*order+7)/8` bytes.  The Go slice
`signal[start:end]` with `end` clipped to `len(signal)` is `drop`/`take`. -/
noncomputable def Modem.Decode (m : Modem) (signal : List ℝ) : List ℕ :=
  let T := m.symbolPeriod.toNat
  let sc := signal.length / T
  if sc = 0 then []
  else
    bytesOfSymbols m.config.order sc
      ((List.range sc).map (fun j => decodeWindowSymbol m ((signal.drop (j * T)).take T)))

/-- Mirror of `realtime.ChatSession`'s state: the modem pointer, the capture
accumulator, the outbound buffer and its play cursor, the capacity-10 inbound
queue, and the running flag. -/
structure ChatSessionState where
  modem : Modem
  capturedSamples : List ℝ
  playbackSignal : List ℝ
  playbackIndex : ℕ
  messageQueue : List (List ℕ)
  running : Bool

/-- Mirror of `NewChatSession` (after a successful context init). -/
def mkChatSessionState (m : Modem) : ChatSessionState :=
  { modem := m, capturedSamples := [], playbackSignal := [], playbackIndex := 0
    messageQueue := [], running := false }

/-- Mirror of `ChatSession.SendMessage`: encode the message into the playback
buffer and reset the play cursor; `Encode` also advances the modem's phase
accumulators.  Nothing else is touched. -/
noncomputable def sessionSendMessage (c : ChatSessionState) (message : List ℕ) :
    ChatSessionState :=
  let r := c.modem.Encode message
  { c with modem := r.2, playbackSignal := r.1, playbackIndex := 0 }

/-- Errors surfaced by the multi-channel registry. -/
inductive ChatError
  | createFailed (id : ℕ)
  | startFailed (id : ℕ)
  | notConnected (id : ℕ)
deriving DecidableEq

/-- Mirror of `fsk.ChannelConfig`. -/
structure ChannelConfig where
  id : ℕ
  baseFreq : ℚ
  freqSpacing : ℚ

/-- Mirror of `MultiChannelChat`'s state: the channel map (as an association
list with map semantics), the active-channel id list, and the username. -/
structure MultiChannelChat where
  channels : List (ℕ × ChatSessionState)
  activeChans : List ℕ
  username : List ℕ

/-- Mirror of `NewMultiChannelChat`. -/
def mkMultiChannelChat (username : List ℕ) : MultiChannelChat :=
  { channels := [], activeChans := [], username := username }

/-- Go map lookup `mc.channels[channelID]`. -/
def lookupChan (l : List (ℕ × ChatSessionState)) (id : ℕ) : Option ChatSessionState :=
  (l.find? (fun p => p.1 = id)).map Prod.snd

/-- Go map assignment `mc.channels[id] = s` (overwrite or append). -/
def insertChan (l : List (ℕ × ChatSessionState)) (id : ℕ) (s : ChatSessionState) :
    List (ℕ × ChatSessionState) :=
  if (l.find? (fun p => p.1 = id)).isSome then
    l.map (fun p => if p.1 = id then (id, s) else p)
  else l ++ [(id, s)]

/-- Go map deletion `delete(mc.channels, id)`. -/
def eraseChan (l : List (ℕ × ChatSessionState)) (id : ℕ) : List (ℕ × ChatSessionState) :=
  l.filter (fun p => p.1 ≠ id)

/-- The key set of the channel map. -/
def chanKeys (mc : MultiChannelChat) : List ℕ := mc.channels.map Prod.fst

/-- Mirror of `MultiChannelChat.JoinChannel`.  `sessionOk`/`startOk` are the
oracle outcomes of the two fallible device calls; each failure path returns
before either `mc.channels` or `mc.activeChans` is touched.  On success the
started session is stored and the id appended to the active list. -/
def joinChannel (mc : MultiChannelChat) (cc : ChannelConfig) (order : ℕ) (baudRate : ℚ)
    (sessionOk startOk : Bool) : Except ChatError Unit × MultiChannelChat :=
  let config : Config :=
    { baseFreq := cc.baseFreq, freqSpacing := cc.freqSpacing, order := order
      baudRate := baudRate, sampleRate := 48000 }
  let modem := mkModem config
  if sessionOk = false then (.error (.createFailed cc.id), mc)
  else if startOk = false then (.error (.startFailed cc.id), mc)
  else
    let cs := { mkChatSessionState modem with running := true }
    (.ok (), { mc with channels := insertChan mc.channels cc.id cs
                       activeChans := mc.activeChans ++ [cc.id] })

/-- Removal of the first occurrence of `id`, as in `LeaveChannel`'s
`append(activeChans[:i], activeChans[i+1:]...)` followed by `break`. -/
def removeFirst (l : List ℕ) (id : ℕ) : List ℕ :=
  match l with
  | [] => []
  | x :: xs => if x = id then xs else x :: removeFirst xs id

/-- Mirror of `MultiChannelChat.LeaveChannel`: error when not connected,
otherwise close the session, delete the map entry and drop the first matching
id from the active list. -/
def leaveChannel (mc : MultiChannelChat) (id : ℕ) : Except ChatError Unit × MultiChannelChat :=
  match lookupChan mc.channels id with
  | none => (.error (.notConnected id), mc)
  | some _ => (.ok (), { mc with channels := eraseChan mc.channels id
                                 activeChans := removeFirst mc.activeChans id })

/-- The bytes of `": "`, used by `SendMessage`'s username prefixing. -/
def colonSpace : List ℕ := [58, 32]

/-- Mirror of `MultiChannelChat.SendMessage`: error when the id is not in the
channel map; otherwise prepend `username + ": "` and hand the full message to
the channel's session. -/
noncomputable def sendMessage (mc : MultiChannelChat) (id : ℕ) (message : List ℕ) :
    Except ChatError Unit × MultiChannelChat :=
  match lookupChan mc.channels id with
  | none => (.error (.notConnected id), mc)
  | some cs =>
    let full := mc.username ++ colonSpace ++ message
    (.ok (), { mc with channels := insertChan mc.channels id (sessionSendMessage cs full) })

/-- One iteration of `BroadcastMessage`'s loop: send on one channel, and on
failure overwrite the remembered `lastErr`. -/
noncomputable def broadcastStep (message : List ℕ)
    (acc : Option ChatError × MultiChannelChat) (id : ℕ) :
    Option ChatError × MultiChannelChat :=
  let r := sendMessage acc.2 id message
  match r.1 with
  | .error e => (some e, r.2)
  | .ok _ => (acc.1, r.2)

/-- Mirror of `MultiChannelChat.BroadcastMessage`: snapshot the active list,
send on every id in order, remember only the most recent error. -/
noncomputable def broadcastMessage (mc : MultiChannelChat) (message : List ℕ) :
    Option ChatError × MultiChannelChat :=
  mc.activeChans.foldl (broadcastStep message) (none, mc)

/-- Mirror of `MultiChannelChat.GetActiveChannels` (a copy of the list). -/
def getActiveChannels (mc : MultiChannelChat) : List ℕ := mc.activeChans

/-- Mirror of `MultiChannelChat.Close`: every session closed, the map reset to
a fresh empty map and the active list to nil. -/
def closeChat (mc : MultiChannelChat) : MultiChannelChat :=
  { mc with channels := [], activeChans := [] }

/-- The registry operations of claim C10. -/
inductive RegistryOp
  | join (cc : ChannelConfig) (order : ℕ) (baudRate : ℚ) (sessionOk startOk : Bool)
  | leave (id : ℕ)
  | close

/-- One registry operation applied to the state. -/
def runOp (mc : MultiChannelChat) : RegistryOp → MultiChannelChat
  | .join cc order baud sOk stOk => (joinChannel mc cc order baud sOk stOk).2
  | .leave id => (leaveChannel mc id).2
  | .close => closeChat mc

/-- A sequence of registry operations applied in order. -/
def runOps (mc : MultiChannelChat) (ops : List RegistryOp) : MultiChannelChat :=
  ops.foldl runOp mc

/-- C10's precondition along a run: `JoinChannel` is never called with a
channel id that is already active. -/
def validOps (mc : MultiChannelChat) : List RegistryOp → Bool
  | [] => true
  | op :: ops =>
    (match op with
     | .join cc _ _ _ _ => !(mc.activeChans.contains cc.id)
     | _ => true) && validOps (runOp mc op) ops

/-- The registry consistency invariant of claim C10: the active list has no
duplicates and lists exactly the keys of the channel map. -/
def registryConsistent (mc : MultiChannelChat) : Prop :=
  mc.activeChans.Nodup ∧ ∀ id : ℕ, id ∈ mc.activeChans ↔ id ∈ chanKeys mc

/-! ### Helper lemmas -/

theorem lookupChan_isSome_iff_mem_keys (l : List (ℕ × ChatSessionState)) (id : ℕ) :
    (lookupChan l id).isSome ↔ id ∈ l.map Prod.fst := by
  induction l with
  | nil => simp [lookupChan]
  | cons p rest ih =>
    by_cases h : p.1 = id
    · simp [lookupChan, List.find?_cons, h]
    · simp only [lookupChan, List.find?_cons, h, decide_eq_true_eq, if_neg,
        decide_eq_false_iff_not] at ih ⊢
      simp [ih, h, Ne.symm h]

theorem lookupChan_none_iff_not_mem_keys (l : List (ℕ × ChatSessionState)) (id : ℕ) :
    lookupChan l id = none ↔ id ∉ l.map Prod.fst := by
  rw [← lookupChan_isSome_iff_mem_keys]
  cases lookupChan l id <;> simp

/-! ### C3: constructor derivation -/

/-- C3 (amended): for every configuration with `Order ≥ 1`, `SymbolRate > 0`
and a nonnegative `SampleRate`, `New` derives
`SymbolPeriod = floor(SampleRate / SymbolRate)` (Go's `int(...)` conversion
truncates, it does not round) and a frequency table of exactly `2^Order`
entries with `frequency[i] = BaseFrequency + i*FrequencySpacing`. -/
theorem C3_constructor_derivation (cfg : Config) (horder : 1 ≤ cfg.order)
    (hbaud : 0 < cfg.baudRate) (hsr : 0 ≤ cfg.sampleRate) :
    (mkModem cfg).symbolPeriod = ⌊(cfg.sampleRate : ℚ) / cfg.baudRate⌋ ∧
    (mkModem cfg).frequencies.length = 2 ^ cfg.order ∧
    ∀ i < 2 ^ cfg.order,
      (mkModem cfg).frequencies.getD i 0 = cfg.baseFreq + (i : ℚ) * cfg.freqSpacing := by
  have hq : (0 : ℚ) ≤ (cfg.sampleRate : ℚ) / cfg.baudRate := by
    apply div_nonneg _ hbaud.le
    exact_mod_cast hsr
  refine ⟨by simp [mkModem, ratTrunc, hq], ?_, ?_⟩
  · simp only [mkModem, List.length_map, List.length_range]
  · intro i hi
    simp only [mkModem, List.getD_eq_getElem?_getD, List.getElem?_map,
      List.getElem?_range hi, Option.map_some', Option.getD_some]

/-- C3 counterexample: at `SampleRate = 48000`, `BaudRate = 7000` (with
`Order = 2 ≥ 1` and a positive rate) the engine's symbol period is `6`
(truncation of `48/7 ≈ 6.857`), while rounding would give `7`. -/
theorem C3_cex_trunc_not_round :
    (1 ≤ (2 : ℕ) ∧ (0 : ℚ) < 7000) ∧
    (mkModem { baseFreq := 1000, freqSpacing := 200, order := 2,
               baudRate := 7000, sampleRate := 48000 }).symbolPeriod = 6 ∧
    round ((48000 : ℚ) / 7000) = 7 := by
  refine ⟨by norm_num, ?_, by norm_num [round_eq]⟩
  show ratTrunc ((48000 : ℚ) / 7000) = 6
  rw [ratTrunc, if_pos (by norm_num), Int.floor_eq_iff]
  constructor <;> norm_num

/-- Witness for C3 at the default configuration: `48000/100 → 480`. -/
theorem C3_constructor_derivation_witness :
    (mkModem defaultConfig).symbolPeriod = ⌊(defaultConfig.sampleRate : ℚ) / defaultConfig.baudRate⌋ ∧
    (mkModem defaultConfig).frequencies.length = 2 ^ defaultConfig.order ∧
    ∀ i < 2 ^ defaultConfig.order,
      (mkModem defaultConfig).frequencies.getD i 0 =
        defaultConfig.baseFreq + (i : ℚ) * defaultConfig.freqSpacing :=
  C3_constructor_derivation defaultConfig (by decide) (by norm_num [defaultConfig]) (by decide)

/-! ### C9: last-write-wins outbound -/

/-- C9: `ChatSession.SendMessage` replaces the outbound buffer with the freshly
encoded message, resets the play cursor to `0`, and leaves the captured
samples, the inbound queue and the running flag untouched, whatever the prior
session state was (an in-flight transmission is simply overwritten). -/
theorem C9_send_last_write_wins (c : ChatSessionState) (message : List ℕ) :
    (sessionSendMessage c message).playbackSignal = (c.modem.Encode message).1 ∧
    (sessionSendMessage c message).playbackIndex = 0 ∧
    (sessionSendMessage c message).capturedSamples = c.capturedSamples ∧
    (sessionSendMessage c message).messageQueue = c.messageQueue ∧
    (sessionSendMessage c message).running = c.running := by
  simp [sessionSendMessage]

/-! ### C6: decode determinism -/

/-- C6: `Decode` is a pure function of the sample buffer and the engine's
immutable configuration (symbol period, order, sample rate, frequency table):
two engines agreeing on those decode every buffer identically, and `Encode`
calls (which only advance phase accumulators) never change decoding. -/
theorem C6_decode_deterministic :
    (∀ m₁ m₂ : Modem, m₁.config = m₂.config → m₁.symbolPeriod = m₂.symbolPeriod →
      m₁.frequencies = m₂.frequencies → ∀ s, m₁.Decode s = m₂.Decode s) ∧
    (∀ (m : Modem) (data : List ℕ) (s : List ℝ),
      ((m.Encode data).2).Decode s = m.Decode s) := by
  have h1 : ∀ m₁ m₂ : Modem, m₁.config = m₂.config → m₁.symbolPeriod = m₂.symbolPeriod →
      m₁.frequencies = m₂.frequencies → ∀ s, m₁.Decode s = m₂.Decode s := by
    intro m₁ m₂ hc hsp hf s
    unfold Modem.Decode decodeWindowSymbol correlateWithFrequency
    rw [hc, hsp, hf]
  exact ⟨h1, fun m data s => h1 _ _ rfl rfl rfl s⟩

/-- Witness for C6: the default engine, after encoding a byte, still decodes a
fixed buffer exactly as the fresh engine does. -/
theorem C6_decode_deterministic_witness :
    ((mkModem defaultConfig).Encode [72]).2.Decode [1, 0] =
      (mkModem defaultConfig).Decode [1, 0] :=
  C6_decode_deterministic.2 (mkModem defaultConfig) [72] [1, 0]

/-! ### C7: join atomicity -/

/-- C7: if either fallible device call inside `JoinChannel` fails, the call
returns that error and the registry is unchanged — the id enters neither the
channel map nor the active list — so a subsequent `SendMessage` to that id
fails with the not-connected error. -/
theorem C7_join_atomicity (mc : MultiChannelChat) (cc : ChannelConfig) (order : ℕ)
    (baud : ℚ) (sOk stOk : Bool) (msg : List ℕ)
    (hfail : sOk = false ∨ stOk = false)
    (habsent : lookupChan mc.channels cc.id = none) :
    (∃ e, (joinChannel mc cc order baud sOk stOk).1 = .error e) ∧
    (joinChannel mc cc order baud sOk stOk).2 = mc ∧
    (sendMessage (joinChannel mc cc order baud sOk stOk).2 cc.id msg).1 =
      .error (.notConnected cc.id) ∧
    (sendMessage (joinChannel mc cc order baud sOk stOk).2 cc.id msg).2 =
      (joinChannel mc cc order baud sOk stOk).2 := by
  have hju : (joinChannel mc cc order baud sOk stOk).2 = mc ∧
      ∃ e, (joinChannel mc cc order baud sOk stOk).1 = Except.error e := by
    rcases hfail with h | h
    · subst h; exact ⟨rfl, _, rfl⟩
    · subst h
      cases sOk
      · exact ⟨rfl, _, rfl⟩
      · exact ⟨rfl, _, rfl⟩
  refine ⟨hju.2, hju.1, ?_, ?_⟩ <;> rw [hju.1] <;> simp [sendMessage, habsent]

/-- Witness for C7: joining channel 1 on an empty registry with a failing
device start leaves the registry empty and sending to channel 1 fails. -/
theorem C7_join_atomicity_witness :
    ((false = false ∨ true = false) ∧
      lookupChan (mkMultiChannelChat [65]).channels 1 = none) ∧
    ((∃ e, (joinChannel (mkMultiChannelChat [65]) ⟨1, 22000, 500⟩ 2 100 false true).1 =
        .error e) ∧
    (joinChannel (mkMultiChannelChat [65]) ⟨1, 22000, 500⟩ 2 100 false true).2 =
      mkMultiChannelChat [65] ∧
    (sendMessage (joinChannel (mkMultiChannelChat [65]) ⟨1, 22000, 500⟩ 2 100 false true).2
        1 [104, 105]).1 = .error (.notConnected 1) ∧
    (sendMessage (joinChannel (mkMultiChannelChat [65]) ⟨1, 22000, 500⟩ 2 100 false true).2
        1 [104, 105]).2 =
      (joinChannel (mkMultiChannelChat [65]) ⟨1, 22000, 500⟩ 2 100 false true).2) :=
  ⟨⟨Or.inl rfl, rfl⟩,
    C7_join_atomicity (mkMultiChannelChat [65]) ⟨1, 22000, 500⟩ 2 100 false true
      [104, 105] (Or.inl rfl) rfl⟩

/-! ### C2: decode sizing and incomplete input -/

/-- The default engine's symbol period: `int(48000/100) = 480`. -/
theorem dm_symbolPeriod : (mkModem defaultConfig).symbolPeriod = 480 := by
  show ratTrunc ((defaultConfig.sampleRate : ℚ) / defaultConfig.baudRate) = 480
  rw [show ((defaultConfig.sampleRate : ℚ) / defaultConfig.baudRate) = ((480 : ℤ) : ℚ) by
    norm_num [defaultConfig]]
  rw [ratTrunc, if_pos (by norm_num)]
  exact Int.floor_intCast 480

/-- C2: with a positive symbol period, `Decode` only ever looks at the first
`symbolCount * SymbolPeriod` samples (`symbolCount = len/SymbolPeriod`, the
trailing partial period is dropped), returns the empty byte list — not an
error — when `symbolCount = 0`, and always produces exactly
`(symbolCount*Order + 7) / 8` bytes. -/
theorem C2_decode_sizing (m : Modem) (s : List ℝ) (hT : 0 < m.symbolPeriod) :
    m.Decode s =
      m.Decode (s.take (s.length / m.symbolPeriod.toNat * m.symbolPeriod.toNat)) ∧
    (s.length / m.symbolPeriod.toNat = 0 → m.Decode s = []) ∧
    (m.Decode s).length = (s.length / m.symbolPeriod.toNat * m.config.order + 7) / 8 := by
  have hT' : 0 < m.symbolPeriod.toNat := by omega
  by_cases h0 : s.length / m.symbolPeriod.toNat = 0
  · have hdz : m.Decode s = [] := by
      simp [Modem.Decode, h0]
    have hdz2 : m.Decode
        (s.take (s.length / m.symbolPeriod.toNat * m.symbolPeriod.toNat)) = [] := by
      rw [h0, Nat.zero_mul, List.take_zero]
      simp [Modem.Decode]
    refine ⟨hdz.trans hdz2.symm, fun _ => hdz, ?_⟩
    rw [hdz, h0]
    simp
  · have hscT : s.length / m.symbolPeriod.toNat * m.symbolPeriod.toNat ≤ s.length :=
      Nat.div_mul_le_self s.length m.symbolPeriod.toNat
    have htake : (s.take (s.length / m.symbolPeriod.toNat * m.symbolPeriod.toNat)).length =
        s.length / m.symbolPeriod.toNat * m.symbolPeriod.toNat := by
      rw [List.length_take]; omega
    have hsc : (s.take (s.length / m.symbolPeriod.toNat * m.symbolPeriod.toNat)).length /
        m.symbolPeriod.toNat = s.length / m.symbolPeriod.toNat := by
      rw [htake, Nat.mul_div_cancel _ hT']
    have hwin : ∀ j < s.length / m.symbolPeriod.toNat,
        ((s.take (s.length / m.symbolPeriod.toNat * m.symbolPeriod.toNat)).drop
            (j * m.symbolPeriod.toNat)).take m.symbolPeriod.toNat =
          (s.drop (j * m.symbolPeriod.toNat)).take m.symbolPeriod.toNat := by
      intro j hj
      rw [List.drop_take, List.take_take]
      congr 1
      have h2 : (j + 1) * m.symbolPeriod.toNat ≤
          s.length / m.symbolPeriod.toNat * m.symbolPeriod.toNat :=
        Nat.mul_le_mul_right _ hj
      rw [Nat.succ_mul] at h2
      omega
    refine ⟨?_, fun h => absurd h h0, ?_⟩
    · simp only [Modem.Decode, hsc, if_neg h0]
      congr 1
      apply List.map_congr_left
      intro j hj
      rw [hwin j (List.mem_range.mp hj)]
    · simp only [Modem.Decode, if_neg h0, bytesOfSymbols, List.length_map, List.length_range]

/-- Witness for C2 at the default engine (`SymbolPeriod = 480`) on a
three-sample buffer: no full window, so the decode result is empty. -/
theorem C2_decode_sizing_witness :
    (0 : ℤ) < (mkModem defaultConfig).symbolPeriod ∧
    ((mkModem defaultConfig).Decode [1, 0, 1] =
      (mkModem defaultConfig).Decode ([1, 0, 1].take
        (([1, 0, 1] : List ℝ).length / (mkModem defaultConfig).symbolPeriod.toNat *
          (mkModem defaultConfig).symbolPeriod.toNat)) ∧
    (([1, 0, 1] : List ℝ).length / (mkModem defaultConfig).symbolPeriod.toNat = 0 →
      (mkModem defaultConfig).Decode [1, 0, 1] = []) ∧
    ((mkModem defaultConfig).Decode [1, 0, 1]).length =
      (([1, 0, 1] : List ℝ).length / (mkModem defaultConfig).symbolPeriod.toNat *
        (mkModem defaultConfig).config.order + 7) / 8) :=
  ⟨by rw [dm_symbolPeriod]; norm_num,
    C2_decode_sizing (mkModem defaultConfig) [1, 0, 1] (by rw [dm_symbolPeriod]; norm_num)⟩

/-! ### C4: tie-break rule of the maximum search -/

/-- Characterization of the folded maximum search from an arbitrary start:
either nothing beat the running best (all elements `≤ b`, state unchanged), or
the state points at an element that is strictly above `b`, is a maximum of the
list, and is strictly above every earlier element (so it is the first
occurrence of the maximum). -/
theorem scanStep_foldl_spec (l : List ℝ) : ∀ (k : ℕ) (b : ℝ) (i0 : ℕ),
    ((l.enumFrom k).foldl scanStep (b, i0) = (b, i0) ∧ ∀ c ∈ l, c ≤ b) ∨
    (∃ j, j < l.length ∧
      ((l.enumFrom k).foldl scanStep (b, i0)).2 = k + j ∧
      ((l.enumFrom k).foldl scanStep (b, i0)).1 = l.getD j 0 ∧
      b < l.getD j 0 ∧
      (∀ t < l.length, l.getD t 0 ≤ l.getD j 0) ∧
      (∀ t < j, l.getD t 0 < l.getD j 0)) := by
  induction l with
  | nil => intro k b i0; left; exact ⟨rfl, by simp⟩
  | cons c rest ih =>
    intro k b i0
    have hfold : (((c :: rest).enumFrom k).foldl scanStep (b, i0)) =
        (rest.enumFrom (k + 1)).foldl scanStep (scanStep (b, i0) (k, c)) := by
      simp [List.enumFrom_cons]
    by_cases hbc : b < c
    · have hstep : scanStep (b, i0) (k, c) = (c, k) := by simp [scanStep, hbc]
      rw [hstep] at hfold
      rcases ih (k + 1) c k with ⟨hr, hall⟩ | ⟨j, hjl, hj2, hj1, hlt, hmax, hbef⟩
      · right
        refine ⟨0, by simp, ?_, ?_, by simpa using hbc, ?_, by omega⟩
        · rw [hfold, hr]; simp
        · rw [hfold, hr]; simp
        · intro t ht
          match t with
          | 0 => simp
          | t + 1 =>
            simp only [List.getD_cons_succ, List.getD_cons_zero]
            have ht' : t < rest.length := by simpa using ht
            rw [List.getD_eq_getElem?_getD, List.getElem?_eq_getElem ht']
            simpa using hall _ (List.getElem_mem ht')
      · right
        refine ⟨j + 1, by simpa using hjl, ?_, ?_, ?_, ?_, ?_⟩
        · rw [hfold, hj2]; omega
        · rw [hfold, hj1]; simp
        · simp only [List.getD_cons_succ]
          exact lt_trans hbc hlt
        · intro t ht
          match t with
          | 0 =>
            simp only [List.getD_cons_succ, List.getD_cons_zero]
            exact le_of_lt hlt
          | t + 1 =>
            simp only [List.getD_cons_succ]
            exact hmax t (by simpa using ht)
        · intro t ht
          match t with
          | 0 =>
            simp only [List.getD_cons_succ, List.getD_cons_zero]
            exact hlt
          | t + 1 =>
            simp only [List.getD_cons_succ]
            exact hbef t (by omega)
    · have hstep : scanStep (b, i0) (k, c) = (b, i0) := by simp [scanStep, hbc]
      rw [hstep] at hfold
      rcases ih (k + 1) b i0 with ⟨hr, hall⟩ | ⟨j, hjl, hj2, hj1, hlt, hmax, hbef⟩
      · left
        refine ⟨by rw [hfold, hr], ?_⟩
        intro x hx
        rcases List.mem_cons.mp hx with rfl | hx
        · exact not_lt.mp hbc
        · exact hall x hx
      · right
        refine ⟨j + 1, by simpa using hjl, ?_, ?_, ?_, ?_, ?_⟩
        · rw [hfold, hj2]; omega
        · rw [hfold, hj1]; simp
        · simp only [List.getD_cons_succ]
          exact hlt
        · intro t ht
          match t with
          | 0 =>
            simp only [List.getD_cons_succ, List.getD_cons_zero]
            exact le_of_lt (lt_of_le_of_lt (not_lt.mp hbc) hlt)
          | t + 1 =>
            simp only [List.getD_cons_succ]
            exact hmax t (by simpa using ht)
        · intro t ht
          match t with
          | 0 =>
            simp only [List.getD_cons_succ, List.getD_cons_zero]
            exact lt_of_le_of_lt (not_lt.mp hbc) hlt
          | t + 1 =>
            simp only [List.getD_cons_succ]
            exact hbef t (by omega)

/-- C4: for a nonempty correlation list whose entries all exceed the `-1.0`
start value (correlation magnitudes are nonnegative), the scan selects an
index that attains the maximum; an index holding a strict maximum always wins,
and on an exact correlation tie the lowest index wins (a later equal value
never replaces it).  The selected symbol is therefore a function of the
correlation values alone. -/
theorem C4_tiebreak (corrs : List ℝ) (hne : corrs ≠ []) (hgt : ∀ c ∈ corrs, -1 < c) :
    selectIdx corrs < corrs.length ∧
    (∀ t < corrs.length, corrs.getD t 0 ≤ corrs.getD (selectIdx corrs) 0) ∧
    (∀ t < corrs.length, corrs.getD t 0 = corrs.getD (selectIdx corrs) 0 →
      selectIdx corrs ≤ t) ∧
    (∀ i < corrs.length,
      (∀ t < corrs.length, t ≠ i → corrs.getD t 0 < corrs.getD i 0) →
      selectIdx corrs = i) := by
  have hspec := scanStep_foldl_spec corrs 0 (-1) 0
  rcases hspec with ⟨_, hall⟩ | ⟨j, hjl, hj2, _, _, hmax, hbef⟩
  · rcases corrs with _ | ⟨c, rest⟩
    · exact absurd rfl hne
    · have h1 := hall c (List.mem_cons_self c rest)
      have h2 := hgt c (List.mem_cons_self c rest)
      linarith
  · have hsel : selectIdx corrs = j := by
      rw [selectIdx, List.enum]
      omega
    rw [hsel]
    refine ⟨hjl, hmax, ?_, ?_⟩
    · intro t ht hteq
      by_contra hcon
      exact absurd hteq (ne_of_lt (hbef t (by omega)))
    · intro i hi hstrict
      by_contra hcon
      have h1 := hstrict j hjl hcon
      have h2 := hmax i hi
      linarith

/-- Witness for C4 on the concrete correlation list `[0, 2, 2, 0]`: the
selected index attains the maximum and ties resolve to the lowest index. -/
theorem C4_tiebreak_witness :
    (([0, 2, 2, 0] : List ℝ) ≠ [] ∧ (∀ c ∈ ([0, 2, 2, 0] : List ℝ), -1 < c)) ∧
    (selectIdx [0, 2, 2, 0] < ([0, 2, 2, 0] : List ℝ).length ∧
    (∀ t < ([0, 2, 2, 0] : List ℝ).length,
      ([0, 2, 2, 0] : List ℝ).getD t 0 ≤ ([0, 2, 2, 0] : List ℝ).getD (selectIdx [0, 2, 2, 0]) 0) ∧
    (∀ t < ([0, 2, 2, 0] : List ℝ).length,
      ([0, 2, 2, 0] : List ℝ).getD t 0 = ([0, 2, 2, 0] : List ℝ).getD (selectIdx [0, 2, 2, 0]) 0 →
      selectIdx [0, 2, 2, 0] ≤ t) ∧
    (∀ i < ([0, 2, 2, 0] : List ℝ).length,
      (∀ t < ([0, 2, 2, 0] : List ℝ).length, t ≠ i →
        ([0, 2, 2, 0] : List ℝ).getD t 0 < ([0, 2, 2, 0] : List ℝ).getD i 0) →
      selectIdx [0, 2, 2, 0] = i)) :=
  ⟨⟨by simp, by intro c hc; fin_cases hc <;> norm_num⟩,
    C4_tiebreak [0, 2, 2, 0] (by simp) (by intro c hc; fin_cases hc <;> norm_num)⟩

/-! ### C8: broadcast error semantics -/

theorem lookup_map_overwrite_ne (l : List (ℕ × ChatSessionState)) (id : ℕ)
    (s : ChatSessionState) (j : ℕ) (hj : j ≠ id) :
    lookupChan (l.map (fun p => if p.1 = id then (id, s) else p)) j = lookupChan l j := by
  induction l with
  | nil => rfl
  | cons p rest ih =>
    simp only [lookupChan] at ih ⊢
    rw [List.map_cons]
    by_cases hpid : p.1 = id
    · rw [if_pos hpid]
      rw [List.find?_cons_of_neg _ (by simp [Ne.symm hj]),
        List.find?_cons_of_neg _ (by simp [hpid, Ne.symm hj])]
      exact ih
    · rw [if_neg hpid]
      by_cases hpj : p.1 = j
      · rw [List.find?_cons_of_pos _ (by simp [hpj]),
          List.find?_cons_of_pos _ (by simp [hpj])]
      · rw [List.find?_cons_of_neg _ (by simp [hpj]),
          List.find?_cons_of_neg _ (by simp [hpj])]
        exact ih

theorem lookup_map_overwrite_eq (l : List (ℕ × ChatSessionState)) (id : ℕ)
    (s : ChatSessionState) (hp : (l.find? (fun p => p.1 = id)).isSome) :
    lookupChan (l.map (fun p => if p.1 = id then (id, s) else p)) id = some s := by
  induction l with
  | nil => simp [List.find?_nil] at hp
  | cons p rest ih =>
    simp only [lookupChan] at ih ⊢
    rw [List.map_cons]
    by_cases hpid : p.1 = id
    · rw [if_pos hpid, List.find?_cons_of_pos _ (by simp)]
      rfl
    · rw [List.find?_cons_of_neg _ (by simp [hpid])] at hp
      rw [if_neg hpid, List.find?_cons_of_neg _ (by simp [hpid])]
      exact ih hp

theorem lookupChan_append (l l2 : List (ℕ × ChatSessionState)) (j : ℕ) :
    lookupChan (l ++ l2) j = (lookupChan l j).or (lookupChan l2 j) := by
  simp only [lookupChan, List.find?_append]
  cases h : List.find? (fun p => p.1 = j) l <;> simp

/-- The net effect of Go's map assignment on lookups: the assigned key now
maps to the new session, every other key is untouched. -/
theorem insertChan_lookup (l : List (ℕ × ChatSessionState)) (id : ℕ) (s : ChatSessionState)
    (j : ℕ) :
    lookupChan (insertChan l id s) j = if j = id then some s else lookupChan l j := by
  by_cases hp : (l.find? (fun p => p.1 = id)).isSome
  · rw [insertChan, if_pos hp]
    by_cases hj : j = id
    · subst hj
      rw [if_pos rfl]
      exact lookup_map_overwrite_eq l j s hp
    · rw [if_neg hj]
      exact lookup_map_overwrite_ne l id s j hj
  · rw [insertChan, if_neg hp, lookupChan_append]
    by_cases hj : j = id
    · subst hj
      have hnone : lookupChan l j = none := by
        rw [lookupChan]
        cases h : List.find? (fun p => p.1 = j) l
        · rfl
        · rw [h] at hp; simp at hp
      rw [hnone]
      have h2 : lookupChan [(j, s)] j = some s := by
        rw [lookupChan, List.find?_cons_of_pos _ (by simp)]
        rfl
      rw [h2]
      simp
    · have h1 : ¬((id : ℕ) = j) := fun h => hj h.symm
      simp [hj, lookupChan, List.find?_cons, h1]

theorem sendMessage_state (mc : MultiChannelChat) (id : ℕ) (msg : List ℕ) :
    (sendMessage mc id msg).2.username = mc.username ∧
    (sendMessage mc id msg).2.activeChans = mc.activeChans ∧
    ∀ j, lookupChan (sendMessage mc id msg).2.channels j =
      if j = id then
        (lookupChan mc.channels id).map
          (fun cs => sessionSendMessage cs (mc.username ++ colonSpace ++ msg))
      else lookupChan mc.channels j := by
  rw [sendMessage]
  cases h : lookupChan mc.channels id with
  | none =>
    refine ⟨rfl, rfl, fun j => ?_⟩
    by_cases hj : j = id
    · subst hj; simp [h]
    · simp [hj]
  | some cs =>
    refine ⟨rfl, rfl, fun j => ?_⟩
    simp only [insertChan_lookup, h]
    by_cases hj : j = id <;> simp [hj]

theorem sendMessage_fst (mc : MultiChannelChat) (id : ℕ) (msg : List ℕ) :
    (sendMessage mc id msg).1 =
      if (lookupChan mc.channels id).isSome then .ok () else .error (.notConnected id) := by
  rw [sendMessage]
  cases h : lookupChan mc.channels id <;> simp

/-- Specification of `BroadcastMessage`'s loop from an arbitrary remembered
error: every listed id that is present in the channel map receives the
prefixed message (failures on other ids do not stop the loop), the registry's
other fields are untouched, and the returned error is the not-connected error
of the last missing id (falling back to the inherited one). -/
theorem broadcastStep_foldl_spec (msg : List ℕ) :
    ∀ (ids : List ℕ) (mc : MultiChannelChat) (e0 : Option ChatError), ids.Nodup →
      (ids.foldl (broadcastStep msg) (e0, mc)).2.username = mc.username ∧
      (ids.foldl (broadcastStep msg) (e0, mc)).2.activeChans = mc.activeChans ∧
      (∀ j, lookupChan ((ids.foldl (broadcastStep msg) (e0, mc)).2).channels j =
        if j ∈ ids then
          (lookupChan mc.channels j).map
            (fun cs => sessionSendMessage cs (mc.username ++ colonSpace ++ msg))
        else lookupChan mc.channels j) ∧
      (ids.foldl (broadcastStep msg) (e0, mc)).1 =
        ((ids.filter (fun id => (lookupChan mc.channels id).isNone)).getLast?.map
          ChatError.notConnected).or e0 := by
  intro ids
  induction ids with
  | nil =>
    intro mc e0 _
    refine ⟨rfl, rfl, fun j => by simp, by simp⟩
  | cons a rest ih =>
    intro mc e0 hnd
    have hna : a ∉ rest := (List.nodup_cons.mp hnd).1
    have hndr : rest.Nodup := (List.nodup_cons.mp hnd).2
    cases h : lookupChan mc.channels a with
    | none =>
      have hstep : broadcastStep msg (e0, mc) a = (some (.notConnected a), mc) := by
        rw [broadcastStep]
        simp only [sendMessage_fst, h, Option.isSome_none, Bool.false_eq_true, if_false]
        have : (sendMessage mc a msg).2 = mc := by
          rw [sendMessage, h]
        rw [this]
      have hfold : (a :: rest).foldl (broadcastStep msg) (e0, mc) =
          rest.foldl (broadcastStep msg) (some (.notConnected a), mc) := by
        rw [List.foldl_cons, hstep]
      obtain ⟨ihu, iha, ihl, ihe⟩ := ih mc (some (.notConnected a)) hndr
      rw [hfold]
      refine ⟨ihu, iha, fun j => ?_, ?_⟩
      · rw [ihl j]
        by_cases hj : j = a
        · subst hj
          by_cases hjr : j ∈ rest
          · simp [hjr]
          · simp [hjr, h]
        · by_cases hjr : j ∈ rest
          · simp [hjr, hj]
          · simp [hjr, hj]
      · rw [ihe]
        have hfa : (lookupChan mc.channels a).isNone = true := by rw [h]; rfl
        rw [List.filter_cons, if_pos hfa]
        cases hfr : (rest.filter (fun id => (lookupChan mc.channels id).isNone)).getLast? with
        | none =>
          have : rest.filter (fun id => (lookupChan mc.channels id).isNone) = [] := by
            rcases hcase : rest.filter (fun id => (lookupChan mc.channels id).isNone) with _ | ⟨x, xs⟩
            · rfl
            · rw [hcase] at hfr
              simp [List.getLast?_eq_getLast] at hfr
          rw [this]
          simp
        | some x =>
          have hne : rest.filter (fun id => (lookupChan mc.channels id).isNone) ≠ [] := by
            intro hc; rw [hc] at hfr; simp at hfr
          rcases hcase : rest.filter (fun id => (lookupChan mc.channels id).isNone) with _ | ⟨y, ys⟩
          · exact absurd hcase hne
          · rw [hcase] at hfr
            rw [List.getLast?_cons_cons, hfr]
            simp
    | some cs =>
      have hok : (sendMessage mc a msg).1 = .ok () := by
        rw [sendMessage_fst, h]; rfl
      have hstep : broadcastStep msg (e0, mc) a = (e0, (sendMessage mc a msg).2) := by
        rw [broadcastStep]
        simp only [hok]
      have hfold : (a :: rest).foldl (broadcastStep msg) (e0, mc) =
          rest.foldl (broadcastStep msg) (e0, (sendMessage mc a msg).2) := by
        rw [List.foldl_cons, hstep]
      obtain ⟨hsu, hsa, hsl⟩ := sendMessage_state mc a msg
      obtain ⟨ihu, iha, ihl, ihe⟩ := ih (sendMessage mc a msg).2 e0 hndr
      rw [hfold]
      refine ⟨ihu.trans hsu, iha.trans hsa, fun j => ?_, ?_⟩
      · rw [ihl j, hsu]
        by_cases hj : j = a
        · subst hj
          have hjr : j ∉ rest := hna
          simp only [hjr, if_false, hsl j, if_pos rfl, h, List.mem_cons, true_or, if_true,
            Option.map_some']
        · by_cases hjr : j ∈ rest
          · simp only [hjr, if_true, hsl j, if_neg hj, List.mem_cons, hjr, or_true, if_true]
          · have : j ∉ a :: rest := by simp [hj, hjr]
            simp only [hjr, if_false, hsl j, if_neg hj, this, if_false]
      · rw [ihe]
        have hfa : (lookupChan mc.channels a).isNone = false := by rw [h]; rfl
        rw [List.filter_cons, if_neg (by rw [hfa]; exact Bool.false_ne_true)]
        have hfc : rest.filter (fun id => (lookupChan (sendMessage mc a msg).2.channels id).isNone)
            = rest.filter (fun id => (lookupChan mc.channels id).isNone) := by
          apply List.filter_congr
          intro x hx
          have hxa : x ≠ a := fun hc => hna (hc ▸ hx)
          rw [hsl x, if_neg hxa]
        rw [hfc]

/-- C8: `BroadcastMessage` attempts a send on every active channel id — a
failing id never stops the remaining sends, every present channel still
receives the prefixed message — and returns only the most recent error:
the not-connected error of the last missing id, or `nil` when every send
succeeds.  One failure is therefore indistinguishable from many. -/
theorem C8_broadcast_last_error (mc : MultiChannelChat) (msg : List ℕ)
    (hnd : mc.activeChans.Nodup) :
    (∀ j, lookupChan (broadcastMessage mc msg).2.channels j =
      if j ∈ mc.activeChans then
        (lookupChan mc.channels j).map
          (fun cs => sessionSendMessage cs (mc.username ++ colonSpace ++ msg))
      else lookupChan mc.channels j) ∧
    (broadcastMessage mc msg).1 =
      (mc.activeChans.filter (fun id => (lookupChan mc.channels id).isNone)).getLast?.map
        ChatError.notConnected ∧
    ((∀ id ∈ mc.activeChans, (lookupChan mc.channels id).isSome) →
      (broadcastMessage mc msg).1 = none) := by
  obtain ⟨_, _, hl, he⟩ := broadcastStep_foldl_spec msg mc.activeChans mc none hnd
  have he' : (broadcastMessage mc msg).1 =
      (mc.activeChans.filter (fun id => (lookupChan mc.channels id).isNone)).getLast?.map
        ChatError.notConnected := by
    rw [broadcastMessage, he, Option.or_none]
  refine ⟨hl, he', fun hall => ?_⟩
  rw [he']
  have : mc.activeChans.filter (fun id => (lookupChan mc.channels id).isNone) = [] := by
    rw [List.filter_eq_nil_iff]
    intro x hx
    have := hall x hx
    simp only [Option.isNone_iff_eq_none]
    intro hc
    rw [hc] at this
    simp at this
  rw [this]
  rfl

/-- Witness for C8: two active ids, one joined channel — the present channel
is updated, and the error is the not-connected error of the missing id `2`. -/
theorem C8_broadcast_last_error_witness :
    (([1, 2] : List ℕ).Nodup) ∧
    ((∀ j, lookupChan (broadcastMessage
        ⟨[(1, mkChatSessionState (mkModem defaultConfig))], [1, 2], [66]⟩ [104]).2.channels j =
      if j ∈ ([1, 2] : List ℕ) then
        (lookupChan [(1, mkChatSessionState (mkModem defaultConfig))] j).map
          (fun cs => sessionSendMessage cs ([66] ++ colonSpace ++ [104]))
      else lookupChan [(1, mkChatSessionState (mkModem defaultConfig))] j) ∧
    (broadcastMessage
        ⟨[(1, mkChatSessionState (mkModem defaultConfig))], [1, 2], [66]⟩ [104]).1 =
      (([1, 2] : List ℕ).filter
        (fun id => (lookupChan [(1, mkChatSessionState (mkModem defaultConfig))] id).isNone)).getLast?.map
        ChatError.notConnected ∧
    ((∀ id ∈ ([1, 2] : List ℕ),
        (lookupChan [(1, mkChatSessionState (mkModem defaultConfig))] id).isSome) →
      (broadcastMessage
        ⟨[(1, mkChatSessionState (mkModem defaultConfig))], [1, 2], [66]⟩ [104]).1 = none)) :=
  ⟨by decide,
    C8_broadcast_last_error ⟨[(1, mkChatSessionState (mkModem defaultConfig))], [1, 2], [66]⟩
      [104] (by decide)⟩

/-! ### C10: registry consistency invariant -/

theorem mem_of_mem_removeFirst (l : List ℕ) (id j : ℕ) (h : j ∈ removeFirst l id) :
    j ∈ l := by
  induction l with
  | nil => simpa [removeFirst] using h
  | cons x xs ih =>
    rw [removeFirst] at h
    by_cases hx : x = id
    · rw [if_pos hx] at h
      exact List.mem_cons_of_mem x h
    · rw [if_neg hx] at h
      rcases List.mem_cons.mp h with rfl | h
      · exact List.mem_cons_self j xs
      · exact List.mem_cons_of_mem x (ih h)

theorem removeFirst_nodup (l : List ℕ) (id : ℕ) (h : l.Nodup) :
    (removeFirst l id).Nodup := by
  induction l with
  | nil => simpa [removeFirst]
  | cons x xs ih =>
    obtain ⟨hx, hxs⟩ := List.nodup_cons.mp h
    rw [removeFirst]
    by_cases hxi : x = id
    · rw [if_pos hxi]; exact hxs
    · rw [if_neg hxi]
      exact List.nodup_cons.mpr ⟨fun hc => hx (mem_of_mem_removeFirst xs id x hc), ih hxs⟩

theorem mem_removeFirst_nodup (l : List ℕ) (id : ℕ) (h : l.Nodup) (j : ℕ) :
    j ∈ removeFirst l id ↔ j ∈ l ∧ j ≠ id := by
  induction l with
  | nil => simp [removeFirst]
  | cons x xs ih =>
    obtain ⟨hx, hxs⟩ := List.nodup_cons.mp h
    rw [removeFirst]
    by_cases hxi : x = id
    · subst hxi
      rw [if_pos rfl]
      constructor
      · intro hj
        exact ⟨List.mem_cons_of_mem x hj, fun hc => hx (hc ▸ hj)⟩
      · rintro ⟨hj, hne⟩
        rcases List.mem_cons.mp hj with rfl | hj
        · exact absurd rfl hne
        · exact hj
    · rw [if_neg hxi]
      constructor
      · intro hj
        rcases List.mem_cons.mp hj with rfl | hj
        · exact ⟨List.mem_cons_self j xs, fun hc => hxi hc⟩
        · obtain ⟨h1, h2⟩ := (ih hxs).mp hj
          exact ⟨List.mem_cons_of_mem x h1, h2⟩
      · rintro ⟨hj, hne⟩
        rcases List.mem_cons.mp hj with rfl | hj
        · exact List.mem_cons_self j _
        · exact List.mem_cons_of_mem x ((ih hxs).mpr ⟨hj, hne⟩)

theorem mem_keys_eraseChan (l : List (ℕ × ChatSessionState)) (id j : ℕ) :
    j ∈ (eraseChan l id).map Prod.fst ↔ j ∈ l.map Prod.fst ∧ j ≠ id := by
  simp only [eraseChan, List.mem_map, List.mem_filter]
  constructor
  · rintro ⟨p, ⟨hp, hpn⟩, rfl⟩
    refine ⟨⟨p, hp, rfl⟩, by simpa using hpn⟩
  · rintro ⟨⟨p, hp, rfl⟩, hne⟩
    exact ⟨p, ⟨hp, by simpa using hne⟩, rfl⟩

theorem joinChannel_consistent (mc : MultiChannelChat) (cc : ChannelConfig)
    (order : ℕ) (baud : ℚ) (sOk stOk : Bool)
    (hc : registryConsistent mc) (hid : cc.id ∉ mc.activeChans) :
    registryConsistent (joinChannel mc cc order baud sOk stOk).2 := by
  cases sOk with
  | false => exact hc
  | true =>
    cases stOk with
    | false => exact hc
    | true =>
      have hkeys : cc.id ∉ chanKeys mc := fun h => hid ((hc.2 cc.id).mpr h)
      have hfind : ¬(mc.channels.find? (fun p => p.1 = cc.id)).isSome = true := by
        intro h
        apply hkeys
        show cc.id ∈ mc.channels.map Prod.fst
        rw [← lookupChan_isSome_iff_mem_keys, lookupChan]
        rcases Option.isSome_iff_exists.mp h with ⟨p, hp⟩
        rw [hp]
        rfl
      rw [joinChannel]
      simp only [Bool.true_eq_false, if_false]
      refine ⟨?_, fun j => ?_⟩
      · simp only [List.nodup_append, List.nodup_cons, List.nodup_nil]
        exact ⟨hc.1, by simp, by simpa [List.disjoint_singleton] using hid⟩
      · simp only [chanKeys, insertChan, if_neg hfind, List.map_append, List.mem_append,
          List.mem_singleton, List.map_cons, List.map_nil]
        have h2 := hc.2 j
        simp only [chanKeys] at h2
        rw [h2]

theorem leaveChannel_consistent (mc : MultiChannelChat) (id : ℕ)
    (hc : registryConsistent mc) :
    registryConsistent (leaveChannel mc id).2 := by
  rw [leaveChannel]
  cases h : lookupChan mc.channels id with
  | none => exact hc
  | some cs =>
    dsimp only
    refine ⟨removeFirst_nodup _ _ hc.1, fun j => ?_⟩
    rw [mem_removeFirst_nodup _ _ hc.1]
    simp only [chanKeys]
    rw [mem_keys_eraseChan]
    have h2 := hc.2 j
    simp only [chanKeys] at h2
    rw [h2]

theorem closeChat_consistent (mc : MultiChannelChat) :
    registryConsistent (closeChat mc) := by
  exact ⟨List.nodup_nil, by simp [closeChat, chanKeys]⟩

theorem runOps_consistent : ∀ (ops : List RegistryOp) (mc : MultiChannelChat),
    registryConsistent mc → validOps mc ops = true →
    registryConsistent (runOps mc ops) := by
  intro ops
  induction ops with
  | nil => intro mc hc _; exact hc
  | cons op rest ih =>
    intro mc hc hv
    have hrun : runOps mc (op :: rest) = runOps (runOp mc op) rest := rfl
    rw [hrun]
    cases op with
    | join cc order baud sOk stOk =>
      simp only [validOps, Bool.and_eq_true] at hv
      exact ih _ (joinChannel_consistent mc cc order baud sOk stOk hc (by simpa using hv.1)) hv.2
    | leave id =>
      simp only [validOps, Bool.and_eq_true, true_and] at hv
      exact ih _ (leaveChannel_consistent mc id hc) hv
    | close =>
      simp only [validOps, Bool.and_eq_true, true_and] at hv
      exact ih _ (closeChat_consistent mc) hv

/-- C10: starting from a fresh registry, as long as `JoinChannel` is never
called with an id that is already active, every sequence of join/leave/close
operations keeps the active-channel list duplicate-free and equal (as a set)
to the key set of the channel map, so `GetActiveChannels` lists exactly the
currently joined ids. -/
theorem C10_registry_consistency (u : List ℕ) (ops : List RegistryOp)
    (hv : validOps (mkMultiChannelChat u) ops = true) :
    (runOps (mkMultiChannelChat u) ops).activeChans.Nodup ∧
    ∀ id : ℕ, id ∈ getActiveChannels (runOps (mkMultiChannelChat u) ops) ↔
      (lookupChan (runOps (mkMultiChannelChat u) ops).channels id).isSome := by
  have h0 : registryConsistent (mkMultiChannelChat u) :=
    ⟨List.nodup_nil, by simp [mkMultiChannelChat, chanKeys]⟩
  have h := runOps_consistent ops _ h0 hv
  refine ⟨h.1, fun id => ?_⟩
  rw [getActiveChannels]
  rw [h.2 id]
  exact (lookupChan_isSome_iff_mem_keys _ id).symm

/-- Witness for C10: join channels 1 and 2, then leave 1 — the active list is
exactly the remaining key set. -/
theorem C10_registry_consistency_witness :
    validOps (mkMultiChannelChat [65])
      [.join ⟨1, 22000, 500⟩ 2 100 true true, .join ⟨2, 24000, 500⟩ 2 100 true true,
        .leave 1] = true ∧
    ((runOps (mkMultiChannelChat [65])
      [.join ⟨1, 22000, 500⟩ 2 100 true true, .join ⟨2, 24000, 500⟩ 2 100 true true,
        .leave 1]).activeChans.Nodup ∧
    ∀ id : ℕ, id ∈ getActiveChannels (runOps (mkMultiChannelChat [65])
      [.join ⟨1, 22000, 500⟩ 2 100 true true, .join ⟨2, 24000, 500⟩ 2 100 true true,
        .leave 1]) ↔
      (lookupChan (runOps (mkMultiChannelChat [65])
        [.join ⟨1, 22000, 500⟩ 2 100 true true, .join ⟨2, 24000, 500⟩ 2 100 true true,
          .leave 1]).channels id).isSome) :=
  ⟨by decide,
    C10_registry_consistency [65]
      [.join ⟨1, 22000, 500⟩ 2 100 true true, .join ⟨2, 24000, 500⟩ 2 100 true true,
        .leave 1] (by decide)⟩

/-! ### C5: phase-accumulator invariant -/

theorem wrapAdd_bounds (inc p : ℝ) (h1 : 0 ≤ inc) (h2 : inc < 2 * π)
    (h3 : 0 ≤ p) (h4 : p < 2 * π) :
    0 ≤ wrapAdd inc p ∧ wrapAdd inc p < 2 * π := by
  rw [wrapAdd]
  split <;> constructor <;> linarith

theorem runSymbol_phase_bounds (inc : ℝ) (h1 : 0 ≤ inc) (h2 : inc < 2 * π) :
    ∀ (n : ℕ) (p : ℝ), 0 ≤ p → p < 2 * π →
      0 ≤ (runSymbol inc n p).2 ∧ (runSymbol inc n p).2 < 2 * π := by
  intro n
  induction n with
  | zero => intro p h3 h4; exact ⟨h3, h4⟩
  | succ n ih =>
    intro p h3 h4
    obtain ⟨h5, h6⟩ := wrapAdd_bounds inc p h1 h2 h3 h4
    simpa [runSymbol] using ih (wrapAdd inc p) h5 h6

theorem phaseInc_bounds (m : Modem)
    (hf : ∀ f ∈ m.frequencies, 0 ≤ f ∧ (f : ℚ) < (m.config.sampleRate : ℚ)) (s : ℕ) :
    0 ≤ phaseInc m.config.sampleRate (m.frequencies.getD s 0) ∧
    phaseInc m.config.sampleRate (m.frequencies.getD s 0) < 2 * π := by
  by_cases hs : s < m.frequencies.length
  · have hmem : m.frequencies.getD s 0 ∈ m.frequencies := by
      rw [List.getD_eq_getElem?_getD, List.getElem?_eq_getElem hs]
      exact List.getElem_mem hs
    obtain ⟨ha, hb⟩ := hf _ hmem
    have haR : (0 : ℝ) ≤ ((m.frequencies.getD s 0 : ℚ) : ℝ) := by exact_mod_cast ha
    have hbR : ((m.frequencies.getD s 0 : ℚ) : ℝ) < (m.config.sampleRate : ℝ) := by
      have := (Rat.cast_lt (K := ℝ)).mpr hb
      push_cast at this
      exact this
    have hN : (0 : ℝ) < (m.config.sampleRate : ℝ) := lt_of_le_of_lt haR hbR
    constructor
    · rw [phaseInc]
      apply div_nonneg _ hN.le
      have := Real.two_pi_pos
      nlinarith
    · rw [phaseInc, div_lt_iff hN]
      have := mul_lt_mul_of_pos_left hbR Real.two_pi_pos
      linarith
  · rw [List.getD_eq_default _ _ (not_lt.mp hs), phaseInc]
    simp [Real.two_pi_pos, Real.pi_pos]

theorem encodeStep_foldl_phase_spec (m : Modem) (data : List ℕ)
    (hf : ∀ f ∈ m.frequencies, 0 ≤ f ∧ (f : ℚ) < (m.config.sampleRate : ℚ)) :
    ∀ (L : List ℕ) (out ps : List ℝ), (∀ p ∈ ps, 0 ≤ p ∧ p < 2 * π) →
      (∀ p ∈ (L.foldl (encodeStep m data) (out, ps)).2, 0 ≤ p ∧ p < 2 * π) ∧
      (∀ i : ℕ, (∀ j ∈ L, symbolAt m.config.order data j ≠ i) →
        (L.foldl (encodeStep m data) (out, ps)).2.getD i 0 = ps.getD i 0) := by
  intro L
  induction L with
  | nil => intro out ps hps; exact ⟨hps, fun i _ => rfl⟩
  | cons j L ih =>
    intro out ps hps
    have hcur : 0 ≤ ps.getD (symbolAt m.config.order data j) 0 ∧
        ps.getD (symbolAt m.config.order data j) 0 < 2 * π := by
      by_cases hs : symbolAt m.config.order data j < ps.length
      · apply hps
        rw [List.getD_eq_getElem?_getD, List.getElem?_eq_getElem hs]
        exact List.getElem_mem hs
      · rw [List.getD_eq_default _ _ (not_lt.mp hs)]
        exact ⟨le_refl 0, Real.two_pi_pos⟩
    obtain ⟨hia, hib⟩ := phaseInc_bounds m hf (symbolAt m.config.order data j)
    have hnew := runSymbol_phase_bounds _ hia hib m.symbolPeriod.toNat _ hcur.1 hcur.2
    have hps' : ∀ p ∈ (encodeStep m data (out, ps) j).2, 0 ≤ p ∧ p < 2 * π := by
      intro p hp
      rw [encodeStep] at hp
      rcases List.mem_or_eq_of_mem_set hp with hp | rfl
      · exact hps p hp
      · exact hnew
    have hfold : (j :: L).foldl (encodeStep m data) (out, ps) =
        L.foldl (encodeStep m data) (encodeStep m data (out, ps) j) := rfl
    rw [hfold]
    have hstep2 : (encodeStep m data (out, ps) j) =
        ((encodeStep m data (out, ps) j).1, (encodeStep m data (out, ps) j).2) := rfl
    rw [hstep2]
    obtain ⟨ih1, ih2⟩ := ih (encodeStep m data (out, ps) j).1 (encodeStep m data (out, ps) j).2 hps'
    refine ⟨ih1, fun i hi => ?_⟩
    rw [ih2 i (fun j' hj' => hi j' (List.mem_cons_of_mem j hj'))]
    rw [encodeStep]
    have hne : symbolAt m.config.order data j ≠ i := hi j (List.mem_cons_self j L)
    rw [List.getD_eq_getElem?_getD, List.getElem?_set_ne hne, ← List.getD_eq_getElem?_getD]

/-- C5 (amended): freshly constructed engines have every phase accumulator at
`0`; and whenever every table frequency `f` satisfies `0 ≤ f < SampleRate`
(the claim's `f < SampleRate` alone does not suffice — a negative frequency
drives its accumulator negative), every `Encode` call keeps all `2^Order`
accumulators inside `[0, 2π)` and leaves the accumulators of never-active
symbols untouched. -/
theorem C5_phase_invariant :
    (∀ cfg : Config, (mkModem cfg).phase = List.replicate (2 ^ cfg.order) 0) ∧
    (∀ (m : Modem) (data : List ℕ),
      (∀ f ∈ m.frequencies, 0 ≤ f ∧ (f : ℚ) < (m.config.sampleRate : ℚ)) →
      (∀ p ∈ m.phase, 0 ≤ p ∧ p < 2 * π) →
      (∀ p ∈ ((m.Encode data).2).phase, 0 ≤ p ∧ p < 2 * π) ∧
      (∀ i : ℕ, (∀ j < encSymbolCount m.config.order data.length,
          symbolAt m.config.order data j ≠ i) →
        ((m.Encode data).2).phase.getD i 0 = m.phase.getD i 0)) := by
  refine ⟨fun cfg => rfl, fun m data hf hp => ?_⟩
  have hphase : ((m.Encode data).2).phase = (encodeRun m data).2 := rfl
  rw [hphase, encodeRun]
  obtain ⟨h1, h2⟩ := encodeStep_foldl_phase_spec m data hf
    (List.range (encSymbolCount m.config.order data.length)) [] m.phase hp
  refine ⟨h1, fun i hi => ?_⟩
  exact h2 i (fun j hj => hi j (List.mem_range.mp hj))

/-- Witness for C5 at the default engine: all frequencies lie in
`[0, 48000)`, the fresh phases are in range, and one `Encode` call keeps
them in `[0, 2π)`. -/
theorem C5_phase_invariant_witness :
    ((∀ f ∈ (mkModem defaultConfig).frequencies,
        0 ≤ f ∧ (f : ℚ) < ((mkModem defaultConfig).config.sampleRate : ℚ)) ∧
      (∀ p ∈ (mkModem defaultConfig).phase, 0 ≤ p ∧ p < 2 * π)) ∧
    ((∀ p ∈ (((mkModem defaultConfig).Encode [72]).2).phase, 0 ≤ p ∧ p < 2 * π) ∧
      (∀ i : ℕ, (∀ j < encSymbolCount (mkModem defaultConfig).config.order 1,
          symbolAt (mkModem defaultConfig).config.order [72] j ≠ i) →
        (((mkModem defaultConfig).Encode [72]).2).phase.getD i 0 =
          (mkModem defaultConfig).phase.getD i 0)) := by
  have hf : ∀ f ∈ (mkModem defaultConfig).frequencies,
      0 ≤ f ∧ (f : ℚ) < ((mkModem defaultConfig).config.sampleRate : ℚ) := by
    intro f hfm
    fin_cases hfm <;> norm_num [defaultConfig, mkModem]
  have hp : ∀ p ∈ (mkModem defaultConfig).phase, 0 ≤ p ∧ p < 2 * π := by
    intro p hpm
    fin_cases hpm <;> exact ⟨le_refl 0, Real.two_pi_pos⟩
  exact ⟨⟨hf, hp⟩, C5_phase_invariant.2 (mkModem defaultConfig) [72] hf hp⟩

theorem symbolAt_one_zeroByte (j : ℕ) : symbolAt 1 [0] j = 0 := by
  have hgd : ([0] : List ℕ).getD (j / 8) 0 = 0 := by
    cases h : j / 8 <;> simp [List.getD]
  simp [symbolAt, dataBit, byteBit, hgd]

theorem negModem_frequencies : (mkModem ⟨-1, 0, 1, 1, 1⟩).frequencies = [-1, -1] := by
  simp only [mkModem]
  norm_num [List.range_succ]

theorem negModem_symbolPeriod : (mkModem ⟨-1, 0, 1, 1, 1⟩).symbolPeriod = 1 := by
  show ratTrunc _ = 1
  rw [show (((⟨-1, 0, 1, 1, 1⟩ : Config).sampleRate : ℚ) / (⟨-1, 0, 1, 1, 1⟩ : Config).baudRate)
      = ((1 : ℤ) : ℚ) by norm_num]
  rw [ratTrunc, if_pos (by norm_num)]
  exact Int.floor_intCast 1

theorem negModem_inc : phaseInc (1 : ℤ) (-1 : ℚ) = -(2 * π) := by
  rw [phaseInc]
  push_cast
  ring

theorem wrapAdd_neg_two_pi (p : ℝ) (hp : p ≤ 0) : wrapAdd (-(2 * π)) p = p - 2 * π := by
  rw [wrapAdd, if_neg (by nlinarith [Real.pi_pos])]
  ring

theorem negModem_step (out : List ℝ) (p q : ℝ) (hp : p ≤ 0) (j : ℕ) :
    encodeStep (mkModem ⟨-1, 0, 1, 1, 1⟩) [0] (out, [p, q]) j =
      (out ++ [0.5 * Real.sin p], [p - 2 * π, q]) := by
  rw [encodeStep]
  have horder : (mkModem ⟨-1, 0, 1, 1, 1⟩).config.order = 1 := rfl
  rw [horder, symbolAt_one_zeroByte, negModem_frequencies, negModem_symbolPeriod]
  have hg : ([(-1 : ℚ), -1]).getD 0 0 = -1 := rfl
  have hsr : (mkModem ⟨-1, 0, 1, 1, 1⟩).config.sampleRate = (1 : ℤ) := rfl
  rw [hg, hsr, negModem_inc]
  have htn : (1 : ℤ).toNat = 1 := rfl
  rw [htn]
  have hrun : runSymbol (-(2 * π)) 1 p = ([0.5 * Real.sin p], wrapAdd (-(2 * π)) p) := by
    simp [runSymbol]
  have hgp : ([p, q] : List ℝ).getD 0 0 = p := rfl
  rw [hgp, hrun, wrapAdd_neg_two_pi p hp]
  rfl

theorem negModem_foldl : ∀ (L : List ℕ) (out : List ℝ) (p q : ℝ), p ≤ 0 →
    ((L.foldl (encodeStep (mkModem ⟨-1, 0, 1, 1, 1⟩) [0]) (out, [p, q])).2 =
      [p - (L.length : ℝ) * (2 * π), q]) := by
  intro L
  induction L with
  | nil =>
    intro out p q _
    simp
  | cons j L ih =>
    intro out p q hp
    rw [List.foldl_cons, negModem_step out p q hp j]
    rw [ih _ (p - 2 * π) q (by nlinarith [Real.pi_pos])]
    congr 1
    rw [List.length_cons]
    push_cast
    ring

/-- C5 counterexample: the configuration
`{BaseFreq = -1, Spacing = 0, Order = 1, BaudRate = 1, SampleRate = 1}`
satisfies the claim's precondition (every table frequency `-1` is less than
the sample rate `1`), yet after `Encode([0x00])` the phase accumulator of
symbol `0` is `-16π`, outside `[0, 2π)`: the stated precondition is too weak
for negative frequencies. -/
theorem C5_cex_negative_frequency :
    (∀ f ∈ (mkModem ⟨-1, 0, 1, 1, 1⟩).frequencies,
      (f : ℚ) < ((mkModem ⟨-1, 0, 1, 1, 1⟩).config.sampleRate : ℚ)) ∧
    ((mkModem ⟨-1, 0, 1, 1, 1⟩).Encode [0]).2.phase.getD 0 0 < 0 := by
  constructor
  · intro f hf
    rw [negModem_frequencies] at hf
    fin_cases hf <;> norm_num [mkModem]
  · show ((encodeRun (mkModem ⟨-1, 0, 1, 1, 1⟩) [0]).2.getD 0 0) < 0
    rw [show encodeRun (mkModem ⟨-1, 0, 1, 1, 1⟩) [0] =
        (List.range 8).foldl (encodeStep (mkModem ⟨-1, 0, 1, 1, 1⟩) [0]) ([], [0, 0])
      from rfl]
    rw [negModem_foldl (List.range 8) [] 0 0 le_rfl]
    rw [List.length_range]
    show (0 : ℝ) - (8 : ℕ) * (2 * π) < 0
    push_cast
    nlinarith [Real.pi_pos]

/-! ### C1: round-trip on the default configuration

The default configuration is exactly resonant: every table frequency
completes a whole number of cycles (10, 12, 14 or 16) in one 480-sample
symbol period, so over the reals the encoder's phase accumulators return to a
multiple of `2π` after every symbol, each window is a pure discrete sinusoid,
and the decoder's correlations are exact discrete orthogonality sums. -/

theorem sum_cos_cycle_not_dvd (n : ℕ) (hn : 0 < n) (m : ℤ) (hm : ¬ (n : ℤ) ∣ m) :
    ∑ t ∈ Finset.range n, Real.cos (2 * π * m * t / n) = 0 := by
  have hnR : ((n : ℝ)) ≠ 0 := by positivity
  have hnC : ((n : ℂ)) ≠ 0 := by exact_mod_cast hnR
  set θ : ℝ := 2 * π * m / n with hθ
  set z : ℂ := Complex.exp ((θ : ℝ) * Complex.I) with hz
  have hz1 : z ≠ 1 := by
    intro hcon
    rw [hz, Complex.exp_eq_one_iff] at hcon
    rcases hcon with ⟨j, hj⟩
    have hj2 : ((θ : ℝ) : ℂ) = (j : ℂ) * (2 * (π : ℝ)) := by
      apply mul_right_cancel₀ Complex.I_ne_zero
      rw [hj]
      ring
    have hj3 : θ = (j : ℝ) * (2 * π) := by exact_mod_cast hj2
    rw [hθ] at hj3
    have hj3' : 2 * π * (m : ℝ) = (j : ℝ) * (2 * π) * n := by
      field_simp at hj3
      linarith [hj3]
    have h2π : (2 * π : ℝ) ≠ 0 := Real.two_pi_pos.ne'
    have hj4 : (m : ℝ) = (j : ℝ) * n := by
      have h5 : 2 * π * (m : ℝ) = 2 * π * ((j : ℝ) * n) := by linear_combination hj3'
      exact mul_left_cancel₀ h2π h5
    have hj5 : m = j * n := by exact_mod_cast hj4
    exact hm ⟨j, by rw [hj5, Int.mul_comm]⟩
  have hzn : z ^ n = 1 := by
    rw [hz, ← Complex.exp_nat_mul]
    have harg : (n : ℂ) * ((θ : ℝ) * Complex.I) = (m : ℂ) * (2 * π * Complex.I) := by
      rw [hθ]
      push_cast
      field_simp
      ring
    rw [harg, Complex.exp_int_mul_two_pi_mul_I]
  have hsum : ∑ t ∈ Finset.range n, z ^ t = 0 := by
    rw [geom_sum_eq hz1, hzn]
    simp
  have hre : ∀ t : ℕ, (z ^ t).re = Real.cos (2 * π * m * t / n) := by
    intro t
    rw [hz, ← Complex.exp_nat_mul]
    have : (t : ℂ) * ((θ : ℝ) * Complex.I) = ((θ * t : ℝ) : ℂ) * Complex.I := by
      push_cast
      ring
    rw [this, Complex.exp_ofReal_mul_I_re]
    congr 1
    rw [hθ]
    ring
  calc ∑ t ∈ Finset.range n, Real.cos (2 * π * m * t / n)
      = ∑ t ∈ Finset.range n, (z ^ t).re := by
        exact Finset.sum_congr rfl (fun t _ => (hre t).symm)
    _ = (∑ t ∈ Finset.range n, z ^ t).re := (Complex.re_sum _ _).symm
    _ = 0 := by rw [hsum]; rfl

theorem sum_cos_cycle_dvd (n : ℕ) (hn : 0 < n) (m : ℤ) (hm : (n : ℤ) ∣ m) :
    ∑ t ∈ Finset.range n, Real.cos (2 * π * m * t / n) = n := by
  obtain ⟨j, rfl⟩ := hm
  have hnR : ((n : ℝ)) ≠ 0 := by positivity
  have hterm : ∀ t ∈ Finset.range n,
      Real.cos (2 * π * (((n : ℤ) * j : ℤ) : ℝ) * t / n) = 1 := by
    intro t _
    have harg : 2 * π * (((n : ℤ) * j : ℤ) : ℝ) * t / n = ((j * t : ℤ) : ℝ) * (2 * π) := by
      push_cast
      field_simp
      ring
    rw [harg, Real.cos_int_mul_two_pi]
  rw [Finset.sum_congr rfl hterm]
  simp

theorem sum_sin_sin (n : ℕ) (hn : 0 < n) (p q : ℕ)
    (hsum : ¬ (n : ℤ) ∣ ((p : ℤ) + q))
    (hdiff : p ≠ q → ¬ (n : ℤ) ∣ ((p : ℤ) - q)) :
    ∑ t ∈ Finset.range n, Real.sin (2 * π * p * t / n) * Real.sin (2 * π * q * t / n) =
      if p = q then (n : ℝ) / 2 else 0 := by
  have hid : ∀ A B : ℝ, Real.sin A * Real.sin B = (Real.cos (A - B) - Real.cos (A + B)) / 2 := by
    intro A B
    rw [Real.cos_sub, Real.cos_add]
    ring
  have hnR : ((n : ℝ)) ≠ 0 := by positivity
  have hsplit : ∀ t : ℕ,
      Real.sin (2 * π * p * t / n) * Real.sin (2 * π * q * t / n) =
        (Real.cos (2 * π * (((p : ℤ) - q : ℤ) : ℝ) * t / n) -
         Real.cos (2 * π * (((p : ℤ) + q : ℤ) : ℝ) * t / n)) / 2 := by
    intro t
    rw [hid]
    congr 2
    · push_cast
      field_simp
      ring
    · push_cast
      field_simp
      ring
  rw [Finset.sum_congr rfl (fun t _ => hsplit t)]
  rw [← Finset.sum_div, Finset.sum_sub_distrib]
  rw [sum_cos_cycle_not_dvd n hn _ hsum]
  by_cases hpq : p = q
  · subst hpq
    rw [if_pos rfl]
    have : ((p : ℤ) - p) = 0 := by ring
    rw [this, sum_cos_cycle_dvd n hn 0 ⟨0, by ring⟩]
    norm_num
  · rw [if_neg hpq]
    rw [sum_cos_cycle_not_dvd n hn _ (hdiff hpq)]
    norm_num

theorem sin_eq_of_shift (p q : ℝ) (h : ∃ k : ℤ, q = p + k * (2 * π)) :
    Real.sin q = Real.sin p := by
  rcases h with ⟨k, rfl⟩
  exact Real.sin_add_int_mul_two_pi p k

theorem wrapAdd_shift (inc p : ℝ) : ∃ k : ℤ, wrapAdd inc p = (p + inc) + k * (2 * π) := by
  rw [wrapAdd]
  split
  · exact ⟨-1, by push_cast; ring⟩
  · exact ⟨0, by push_cast; ring⟩

theorem runSymbol_spec (inc : ℝ) : ∀ (n : ℕ) (p q : ℝ), (∃ k : ℤ, q = p + k * (2 * π)) →
    (runSymbol inc n q).1 =
      (List.range n).map (fun t : ℕ => 0.5 * Real.sin (p + (t : ℝ) * inc)) ∧
    (∃ k : ℤ, (runSymbol inc n q).2 = (p + n * inc) + k * (2 * π)) := by
  intro n
  induction n with
  | zero =>
    intro p q hq
    rcases hq with ⟨k, hk⟩
    exact ⟨by simp [runSymbol], ⟨k, by rw [runSymbol]; push_cast; linarith [hk]⟩⟩
  | succ n ih =>
    intro p q hq
    have hq' : ∃ k : ℤ, wrapAdd inc q = (p + inc) + k * (2 * π) := by
      rcases hq with ⟨k, hk⟩
      rcases wrapAdd_shift inc q with ⟨k', hk'⟩
      exact ⟨k + k', by rw [hk', hk]; push_cast; ring⟩
    obtain ⟨ih1, ih2⟩ := ih (p + inc) (wrapAdd inc q) hq'
    constructor
    · rw [runSymbol]
      simp only []
      rw [List.range_succ_eq_map, List.map_cons, ih1]
      congr 1
      · rw [sin_eq_of_shift p q hq]
        norm_num
      · rw [List.map_map]
        apply List.map_congr_left
        intro t _
        simp only [Function.comp_apply]
        congr 2
        push_cast
        ring
    · rcases ih2 with ⟨k, hk⟩
      refine ⟨k, ?_⟩
      rw [runSymbol]
      simp only []
      rw [hk]
      push_cast
      ring

theorem corrStep_foldl_sum (inc : ℝ) : ∀ (sig : List ℝ) (a q p : ℝ),
    (∃ k : ℤ, q = p + k * (2 * π)) →
    (sig.foldl (corrStep inc) (a, q)).1 =
      a + ∑ t ∈ Finset.range sig.length, sig.getD t 0 * Real.sin (p + t * inc) := by
  intro sig
  induction sig with
  | nil => intro a q p _; simp
  | cons s rest ih =>
    intro a q p hq
    have hq' : ∃ k : ℤ, wrapAdd inc q = (p + inc) + k * (2 * π) := by
      rcases hq with ⟨k, hk⟩
      rcases wrapAdd_shift inc q with ⟨k', hk'⟩
      exact ⟨k + k', by rw [hk', hk]; push_cast; ring⟩
    rw [List.foldl_cons]
    have hstep : corrStep inc (a, q) s = (a + s * Real.sin p, wrapAdd inc q) := by
      rw [corrStep, sin_eq_of_shift p q hq]
    rw [hstep, ih (a + s * Real.sin p) (wrapAdd inc q) (p + inc) hq']
    rw [List.length_cons, Finset.sum_range_succ']
    have hshift : ∀ t : ℕ, (s :: rest).getD (t + 1) 0 * Real.sin (p + (t + 1 : ℕ) * inc) =
        rest.getD t 0 * Real.sin ((p + inc) + t * inc) := by
      intro t
      rw [List.getD_cons_succ]
      congr 2
      push_cast
      ring
    rw [Finset.sum_congr rfl (fun t _ => hshift t)]
    have hzero : (s :: rest).getD 0 0 * Real.sin (p + (0 : ℕ) * inc) = s * Real.sin p := by
      rw [List.getD_cons_zero]
      congr 1
      push_cast
      ring_nf
    rw [hzero]
    ring

theorem correlate_sum (N : ℤ) (sig : List ℝ) (f : ℚ) :
    correlateWithFrequency N sig f =
      |∑ t ∈ Finset.range sig.length, sig.getD t 0 * Real.sin (t * phaseInc N f)| /
        sig.length := by
  rw [correlateWithFrequency]
  rw [corrStep_foldl_sum _ sig 0 0 0 ⟨0, by ring⟩]
  have hsum : ∑ t ∈ Finset.range sig.length,
        sig.getD t 0 * Real.sin (0 + t * phaseInc N f) =
      ∑ t ∈ Finset.range sig.length, sig.getD t 0 * Real.sin (t * phaseInc N f) :=
    Finset.sum_congr rfl (fun t _ => by rw [zero_add])
  rw [zero_add, hsum]

theorem dm_order : (mkModem defaultConfig).config.order = 2 := rfl

theorem dm_sampleRate : (mkModem defaultConfig).config.sampleRate = 48000 := rfl

theorem dm_frequencies :
    (mkModem defaultConfig).frequencies = [1000, 1200, 1400, 1600] := by
  simp only [mkModem]
  norm_num [List.range_succ, defaultConfig]

theorem dm_phase : (mkModem defaultConfig).phase = [0, 0, 0, 0] := rfl

theorem symbolAt_lt (data : List ℕ) (j : ℕ) : symbolAt 2 data j < 4 := by
  have h1 : dataBit data (j * 2 + 0) < 2 := Nat.mod_lt _ (by norm_num)
  have h2 : dataBit data (j * 2 + 1) < 2 := Nat.mod_lt _ (by norm_num)
  simp only [symbolAt, List.range_succ, List.range_zero, List.map_append, List.map_cons,
    List.map_nil, List.sum_append, List.sum_cons, List.sum_nil, List.nil_append]
  omega

theorem dm_inc_angle (s : ℕ) (t : ℕ) :
    (t : ℝ) * phaseInc 48000 ((1000 : ℚ) + s * 200) =
      2 * π * ((10 + 2 * s : ℕ) : ℝ) * (t : ℝ) / ((480 : ℕ) : ℝ) := by
  rw [phaseInc]
  push_cast
  field_simp
  ring

theorem dm_period_inc (s : ℕ) :
    (480 : ℝ) * phaseInc 48000 ((1000 : ℚ) + s * 200) = ((10 + 2 * s : ℕ) : ℤ) * (2 * π) := by
  rw [phaseInc]
  push_cast
  field_simp
  ring

theorem dm_freq_getD (s : ℕ) (hs : s < 4) :
    (mkModem defaultConfig).frequencies.getD s 0 = (1000 : ℚ) + s * 200 := by
  rw [dm_frequencies]
  interval_cases s <;> norm_num

theorem dm_orth (s m' : ℕ) (hs : s < 4) (hm : m' < 4) :
    ∑ t ∈ Finset.range 480,
        Real.sin ((t : ℝ) * phaseInc 48000 ((1000 : ℚ) + s * 200)) *
          Real.sin ((t : ℝ) * phaseInc 48000 ((1000 : ℚ) + m' * 200)) =
      if m' = s then 240 else 0 := by
  have hc1 : ¬ ((480 : ℕ) : ℤ) ∣ (((10 + 2 * s : ℕ) : ℤ) + ((10 + 2 * m' : ℕ) : ℤ)) := by
    intro hdvd
    omega
  have hc2 : (10 + 2 * s) ≠ (10 + 2 * m') →
      ¬ ((480 : ℕ) : ℤ) ∣ (((10 + 2 * s : ℕ) : ℤ) - ((10 + 2 * m' : ℕ) : ℤ)) := by
    intro hne hdvd
    omega
  have key := sum_sin_sin 480 (by norm_num) (10 + 2 * s) (10 + 2 * m') hc1 hc2
  have hcongr : ∑ t ∈ Finset.range 480,
        Real.sin ((t : ℝ) * phaseInc 48000 ((1000 : ℚ) + s * 200)) *
          Real.sin ((t : ℝ) * phaseInc 48000 ((1000 : ℚ) + m' * 200)) =
      ∑ t ∈ Finset.range 480,
        Real.sin (2 * π * ((10 + 2 * s : ℕ) : ℝ) * (t : ℝ) / ((480 : ℕ) : ℝ)) *
          Real.sin (2 * π * ((10 + 2 * m' : ℕ) : ℝ) * (t : ℝ) / ((480 : ℕ) : ℝ)) :=
    Finset.sum_congr rfl (fun t _ => by rw [dm_inc_angle s t, dm_inc_angle m' t])
  rw [hcongr, key]
  by_cases h : m' = s
  · subst h
    rw [if_pos rfl, if_pos rfl]
    norm_num
  · rw [if_neg (by omega), if_neg h]

theorem dm_window_corr (s m' : ℕ) (hs : s < 4) (hm : m' < 4) :
    correlateWithFrequency 48000
      ((List.range 480).map
        (fun t : ℕ => 0.5 * Real.sin ((t : ℝ) * phaseInc 48000 ((1000 : ℚ) + s * 200))))
      ((1000 : ℚ) + m' * 200) =
      if m' = s then 1 / 4 else 0 := by
  rw [correlate_sum]
  have hlen : ((List.range 480).map
      (fun t : ℕ => 0.5 * Real.sin ((t : ℝ) * phaseInc 48000 ((1000 : ℚ) + s * 200)))).length =
      480 := by
    simp
  rw [hlen]
  have hterm : ∀ t ∈ Finset.range 480,
      ((List.range 480).map
        (fun t : ℕ => 0.5 * Real.sin ((t : ℝ) * phaseInc 48000 ((1000 : ℚ) + s * 200)))).getD t 0 *
        Real.sin ((t : ℝ) * phaseInc 48000 ((1000 : ℚ) + m' * 200)) =
      (1 / 2 : ℝ) * (Real.sin ((t : ℝ) * phaseInc 48000 ((1000 : ℚ) + s * 200)) *
        Real.sin ((t : ℝ) * phaseInc 48000 ((1000 : ℚ) + m' * 200))) := by
    intro t ht
    have hget : ((List.range 480).map
        (fun t : ℕ => 0.5 * Real.sin ((t : ℝ) * phaseInc 48000 ((1000 : ℚ) + s * 200)))).getD t 0 =
        0.5 * Real.sin ((t : ℝ) * phaseInc 48000 ((1000 : ℚ) + s * 200)) := by
      rw [List.getD_eq_getElem?_getD, List.getElem?_map,
        List.getElem?_range (Finset.mem_range.mp ht)]
      rfl
    rw [hget]
    ring
  rw [Finset.sum_congr rfl hterm, ← Finset.mul_sum, dm_orth s m' hs hm]
  by_cases h : m' = s
  · rw [if_pos h, if_pos h]
    norm_num
  · rw [if_neg h, if_neg h]
    norm_num

theorem dm_window_select (s : ℕ) (hs : s < 4) :
    decodeWindowSymbol (mkModem defaultConfig)
      ((List.range 480).map
        (fun t : ℕ => 0.5 * Real.sin ((t : ℝ) * phaseInc 48000 ((1000 : ℚ) + s * 200)))) = s := by
  have h0 := dm_window_corr s 0 hs (by norm_num)
  have h1 := dm_window_corr s 1 hs (by norm_num)
  have h2 := dm_window_corr s 2 hs (by norm_num)
  have h3 := dm_window_corr s 3 hs (by norm_num)
  rw [show ((1000 : ℚ) + (0 : ℕ) * 200) = (1000 : ℚ) by norm_num] at h0
  rw [show ((1000 : ℚ) + (1 : ℕ) * 200) = (1200 : ℚ) by norm_num] at h1
  rw [show ((1000 : ℚ) + (2 : ℕ) * 200) = (1400 : ℚ) by norm_num] at h2
  rw [show ((1000 : ℚ) + (3 : ℕ) * 200) = (1600 : ℚ) by norm_num] at h3
  rw [decodeWindowSymbol, dm_sampleRate, dm_frequencies]
  rw [List.map_cons, List.map_cons, List.map_cons, List.map_cons, List.map_nil]
  rw [h0, h1, h2, h3]
  interval_cases s <;>
    norm_num [selectIdx, List.enum, List.enumFrom, scanStep]

theorem dm_symbolPeriod_toNat : (mkModem defaultConfig).symbolPeriod.toNat = 480 := by
  rw [dm_symbolPeriod]
  rfl

theorem dm_encodeStep_eval (data : List ℕ) (out ps : List ℝ) (j : ℕ)
    (hlen : ps.length = 4) (hmult : ∀ i, ∃ k : ℤ, ps.getD i 0 = k * (2 * π)) :
    (encodeStep (mkModem defaultConfig) data (out, ps) j).1 =
      out ++ (List.range 480).map (fun t : ℕ =>
        0.5 * Real.sin ((t : ℝ) * phaseInc 48000 ((1000 : ℚ) + (symbolAt 2 data j) * 200))) ∧
    (encodeStep (mkModem defaultConfig) data (out, ps) j).2.length = 4 ∧
    (∀ i, ∃ k : ℤ, (encodeStep (mkModem defaultConfig) data (out, ps) j).2.getD i 0 =
      k * (2 * π)) := by
  have hs4 : symbolAt 2 data j < 4 := symbolAt_lt data j
  have hstep : encodeStep (mkModem defaultConfig) data (out, ps) j =
      (out ++ (runSymbol (phaseInc 48000 ((1000 : ℚ) + (symbolAt 2 data j) * 200)) 480
          (ps.getD (symbolAt 2 data j) 0)).1,
        ps.set (symbolAt 2 data j)
          ((runSymbol (phaseInc 48000 ((1000 : ℚ) + (symbolAt 2 data j) * 200)) 480
            (ps.getD (symbolAt 2 data j) 0)).2)) := by
    simp only [encodeStep, dm_order, dm_sampleRate, dm_symbolPeriod_toNat,
      dm_freq_getD _ hs4]
  obtain ⟨k, hq⟩ := hmult (symbolAt 2 data j)
  have hq0 : ∃ k : ℤ, ps.getD (symbolAt 2 data j) 0 = 0 + k * (2 * π) := ⟨k, by rw [hq]; ring⟩
  obtain ⟨hr1, hr2⟩ := runSymbol_spec (phaseInc 48000 ((1000 : ℚ) + (symbolAt 2 data j) * 200))
    480 0 (ps.getD (symbolAt 2 data j) 0) hq0
  refine ⟨?_, ?_, ?_⟩
  · rw [hstep]
    show out ++ _ = out ++ _
    rw [hr1]
    congr 1
    apply List.map_congr_left
    intro t _
    rw [zero_add]
  · rw [hstep]
    show (ps.set _ _).length = 4
    rw [List.length_set, hlen]
  · intro i
    rw [hstep]
    show ∃ k : ℤ, (ps.set _ _).getD i 0 = k * (2 * π)
    by_cases hi : i = symbolAt 2 data j
    · rw [hi]
      have hilen : symbolAt 2 data j < ps.length := by omega
      rw [List.getD_eq_getElem?_getD, List.getElem?_set_eq hilen, Option.getD_some]
      rcases hr2 with ⟨k', hk'⟩
      refine ⟨((10 + 2 * symbolAt 2 data j : ℕ) : ℤ) + k', ?_⟩
      rw [hk', zero_add]
      have h480 : ((480 : ℕ) : ℝ) * phaseInc 48000 ((1000 : ℚ) + (symbolAt 2 data j) * 200) =
          (((10 + 2 * symbolAt 2 data j : ℕ) : ℤ) : ℝ) * (2 * π) := by
        rw [show ((480 : ℕ) : ℝ) = (480 : ℝ) by norm_num]
        exact dm_period_inc (symbolAt 2 data j)
      rw [h480]
      push_cast
      ring
    · rw [List.getD_eq_getElem?_getD, List.getElem?_set_ne (fun h => hi h.symm),
        ← List.getD_eq_getElem?_getD]
      exact hmult i

theorem dm_encode_foldl (data : List ℕ) : ∀ (L : List ℕ) (out ps : List ℝ),
    ps.length = 4 → (∀ i, ∃ k : ℤ, ps.getD i 0 = k * (2 * π)) →
    (L.foldl (encodeStep (mkModem defaultConfig) data) (out, ps)).1 =
      out ++ (L.map (fun j => (List.range 480).map (fun t : ℕ =>
        0.5 * Real.sin ((t : ℝ) *
          phaseInc 48000 ((1000 : ℚ) + (symbolAt 2 data j) * 200))))).flatten := by
  intro L
  induction L with
  | nil => intro out ps _ _; simp
  | cons j L ih =>
    intro out ps hlen hmult
    obtain ⟨h1, h2, h3⟩ := dm_encodeStep_eval data out ps j hlen hmult
    rw [List.foldl_cons]
    have hpair : encodeStep (mkModem defaultConfig) data (out, ps) j =
        ((encodeStep (mkModem defaultConfig) data (out, ps) j).1,
         (encodeStep (mkModem defaultConfig) data (out, ps) j).2) := rfl
    rw [hpair, ih _ _ h2 h3, h1]
    rw [List.map_cons, List.flatten_cons, List.append_assoc]

theorem flatten_chunk (T : ℕ) : ∀ (L : List (List ℝ)), (∀ w ∈ L, w.length = T) →
    ∀ j, j < L.length → ((L.flatten).drop (j * T)).take T = L.getD j [] := by
  intro L
  induction L with
  | nil =>
    intro _ j hj
    simp at hj
  | cons w L ih =>
    intro hw j hj
    rw [List.flatten_cons]
    match j with
    | 0 =>
      rw [Nat.zero_mul, List.drop_zero, List.getD_cons_zero]
      have hwT : w.length = T := hw w (List.mem_cons_self w L)
      rw [← hwT, List.take_left]
    | j + 1 =>
      rw [List.getD_cons_succ]
      have hwT : w.length = T := hw w (List.mem_cons_self w L)
      have hdrop : (w ++ L.flatten).drop ((j + 1) * T) = (L.flatten).drop (j * T) := by
        rw [show (j + 1) * T = w.length + j * T by rw [hwT]; ring]
        rw [List.drop_append]
      rw [hdrop]
      exact ih (fun w' hw' => hw w' (List.mem_cons_of_mem _ hw')) j (by simpa using hj)

theorem flatten_len (T : ℕ) : ∀ (L : List (List ℝ)), (∀ w ∈ L, w.length = T) →
    L.flatten.length = L.length * T := by
  intro L
  induction L with
  | nil => intro _; simp
  | cons w L ih =>
    intro hw
    rw [List.flatten_cons, List.length_append, hw w (List.mem_cons_self w L),
      ih (fun w' hw' => hw w' (List.mem_cons_of_mem _ hw')), List.length_cons]
    ring

theorem encSymbolCount_two (len : ℕ) : encSymbolCount 2 len = 4 * len := by
  rw [encSymbolCount]
  omega

theorem dataBit_lt (data : List ℕ) (t : ℕ) : dataBit data t < 2 :=
  Nat.mod_lt _ (by norm_num)

theorem symbolAt_two_decomp (data : List ℕ) (j : ℕ) :
    symbolAt 2 data j = dataBit data (j * 2) * 2 + dataBit data (j * 2 + 1) := by
  simp [symbolAt, List.range_succ]

set_option maxRecDepth 4096 in
theorem byte_expand : ∀ b < 256,
    ((List.range 8).map (fun k => byteBit b k * 2 ^ (7 - k))).sum = b := by
  decide

theorem symBit_symbolAt (data : List ℕ) (j r : ℕ) (hr : r < 2) :
    symBit 2 (symbolAt 2 data j) r = dataBit data (j * 2 + r) := by
  have ha := dataBit_lt data (j * 2)
  have hb := dataBit_lt data (j * 2 + 1)
  rw [symbolAt_two_decomp]
  interval_cases r <;> · norm_num [symBit]; omega

theorem bytes_roundtrip (data : List ℕ) (hd : ∀ b ∈ data, b < 256) :
    bytesOfSymbols 2 (4 * data.length)
      ((List.range (4 * data.length)).map (fun j => symbolAt 2 data j)) = data := by
  rw [bytesOfSymbols]
  have hbc : (4 * data.length * 2 + 7) / 8 = data.length := by omega
  rw [hbc]
  refine List.ext_getElem (by simp) ?_
  intro i h1 h2
  rw [List.getElem_map, List.getElem_range]
  have hibound : i < data.length := h2
  have hin : ∀ k ∈ List.range 8,
      (if 8 * i + k < 4 * data.length * 2 then
        symBit 2 (((List.range (4 * data.length)).map
            (fun j => symbolAt 2 data j)).getD ((8 * i + k) / 2) 0) ((8 * i + k) % 2) *
          2 ^ (7 - k)
      else 0) = byteBit data[i] k * 2 ^ (7 - k) := by
    intro k hk
    have hk8 : k < 8 := List.mem_range.mp hk
    have hguard : 8 * i + k < 4 * data.length * 2 := by omega
    rw [if_pos hguard]
    have hj : (8 * i + k) / 2 < 4 * data.length := by omega
    have hsym : ((List.range (4 * data.length)).map
        (fun j => symbolAt 2 data j)).getD ((8 * i + k) / 2) 0 =
        symbolAt 2 data ((8 * i + k) / 2) := by
      rw [List.getD_eq_getElem?_getD, List.getElem?_map, List.getElem?_range hj]
      rfl
    rw [hsym, symBit_symbolAt data _ _ (Nat.mod_lt _ (by norm_num))]
    have hidx : (8 * i + k) / 2 * 2 + (8 * i + k) % 2 = 8 * i + k := by omega
    rw [hidx]
    have hdiv : (8 * i + k) / 8 = i := by omega
    have hmod : (8 * i + k) % 8 = k := by omega
    rw [dataBit, hdiv, hmod]
    have hgd : data.getD i 0 = data[i] := by
      rw [List.getD_eq_getElem?_getD, List.getElem?_eq_getElem hibound]
      rfl
    rw [hgd]
  rw [List.map_congr_left hin]
  exact byte_expand data[i] (hd _ (List.getElem_mem hibound))

theorem dm_phase_getD (i : ℕ) : ((mkModem defaultConfig).phase).getD i 0 = 0 := by
  rw [dm_phase]
  rcases i with _ | _ | _ | _ | i <;> rfl

theorem dm_encode_shape (data : List ℕ) :
    ((mkModem defaultConfig).Encode data).1 =
      ((List.range (4 * data.length)).map (fun j => (List.range 480).map (fun t : ℕ =>
        0.5 * Real.sin ((t : ℝ) *
          phaseInc 48000 ((1000 : ℚ) + (symbolAt 2 data j) * 200))))).flatten := by
  have h0 : ((mkModem defaultConfig).Encode data).1 =
      ((List.range (encSymbolCount (mkModem defaultConfig).config.order data.length)).foldl
        (encodeStep (mkModem defaultConfig) data) ([], (mkModem defaultConfig).phase)).1 := rfl
  rw [h0, dm_order, encSymbolCount_two, dm_phase]
  rw [dm_encode_foldl data (List.range (4 * data.length)) [] [0, 0, 0, 0] rfl
    (fun i => ⟨0, by rw [← dm_phase, dm_phase_getD]; ring⟩)]
  rw [List.nil_append]

/-- C1: on the default configuration
`{Base=1000, Spacing=200, Order=2, SymbolRate=100, SampleRate=48000}` (the
spec's example, whose frequencies are exactly resonant with the 480-sample
symbol period), decoding the exact sample buffer produced by `Encode` on a
fresh engine returns the original bytes, for every byte sequence — `Order = 2`
divides every bit length, the windows are symbol-aligned by construction and
no interference is present — and the buffer holds `4·len` symbols of 480
samples (`1920·len`; 21120 for an 11-byte message). -/
theorem C1_roundtrip (data : List ℕ) (hd : ∀ b ∈ data, b < 256) :
    (mkModem defaultConfig).Decode (((mkModem defaultConfig).Encode data).1) = data ∧
    ((mkModem defaultConfig).Encode data).1.length = 1920 * data.length := by
  have hwin : ∀ w ∈ (List.range (4 * data.length)).map (fun j => (List.range 480).map
      (fun t : ℕ => 0.5 * Real.sin ((t : ℝ) *
        phaseInc 48000 ((1000 : ℚ) + (symbolAt 2 data j) * 200)))), w.length = 480 := by
    intro w hw
    rcases List.mem_map.mp hw with ⟨j, _, rfl⟩
    simp
  have hflen : (((List.range (4 * data.length)).map (fun j => (List.range 480).map
      (fun t : ℕ => 0.5 * Real.sin ((t : ℝ) *
        phaseInc 48000 ((1000 : ℚ) + (symbolAt 2 data j) * 200))))).flatten).length =
      4 * data.length * 480 := by
    rw [flatten_len 480 _ hwin, List.length_map, List.length_range]
  have hlen : ((mkModem defaultConfig).Encode data).1.length = 1920 * data.length := by
    rw [dm_encode_shape, hflen]
    ring
  refine ⟨?_, hlen⟩
  rw [dm_encode_shape]
  by_cases h0 : data.length = 0
  · have hdata : data = [] := List.length_eq_zero.mp h0
    subst hdata
    simp [Modem.Decode]
  · have hT : (mkModem defaultConfig).symbolPeriod.toNat = 480 := dm_symbolPeriod_toNat
    have hsc : (((List.range (4 * data.length)).map (fun j => (List.range 480).map
        (fun t : ℕ => 0.5 * Real.sin ((t : ℝ) *
          phaseInc 48000 ((1000 : ℚ) + (symbolAt 2 data j) * 200))))).flatten).length /
        (mkModem defaultConfig).symbolPeriod.toNat = 4 * data.length := by
      rw [hT, hflen, Nat.mul_div_cancel _ (by norm_num)]
    simp only [Modem.Decode, hsc, dm_order]
    rw [if_neg (by omega)]
    have hsyms : ((List.range (4 * data.length)).map (fun j =>
        decodeWindowSymbol (mkModem defaultConfig)
          (((((List.range (4 * data.length)).map (fun j => (List.range 480).map
            (fun t : ℕ => 0.5 * Real.sin ((t : ℝ) *
              phaseInc 48000 ((1000 : ℚ) + (symbolAt 2 data j) * 200))))).flatten).drop
                (j * (mkModem defaultConfig).symbolPeriod.toNat)).take
            (mkModem defaultConfig).symbolPeriod.toNat))) =
        (List.range (4 * data.length)).map (fun j => symbolAt 2 data j) := by
      apply List.map_congr_left
      intro j hj
      have hjlen : j < 4 * data.length := List.mem_range.mp hj
      rw [hT]
      rw [flatten_chunk 480 _ hwin j (by simpa using hjlen)]
      have hgd : ((List.range (4 * data.length)).map (fun j => (List.range 480).map
          (fun t : ℕ => 0.5 * Real.sin ((t : ℝ) *
            phaseInc 48000 ((1000 : ℚ) + (symbolAt 2 data j) * 200))))).getD j [] =
          (List.range 480).map (fun t : ℕ => 0.5 * Real.sin ((t : ℝ) *
            phaseInc 48000 ((1000 : ℚ) + (symbolAt 2 data j) * 200))) := by
        rw [List.getD_eq_getElem?_getD, List.getElem?_map, List.getElem?_range hjlen,
          Option.map_some', Option.getD_some]
      rw [hgd]
      exact dm_window_select (symbolAt 2 data j) (symbolAt_lt data j)
    rw [hsyms]
    exact bytes_roundtrip data hd

/-- Witness for C1 on the 11-byte message `"Hello, FSK!"`: 21120 samples that
decode back to the original bytes. -/
theorem C1_roundtrip_witness :
    (∀ b ∈ ([72, 101, 108, 108, 111, 44, 32, 70, 83, 75, 33] : List ℕ), b < 256) ∧
    ((mkModem defaultConfig).Decode
        (((mkModem defaultConfig).Encode
          [72, 101, 108, 108, 111, 44, 32, 70, 83, 75, 33]).1) =
      [72, 101, 108, 108, 111, 44, 32, 70, 83, 75, 33] ∧
    ((mkModem defaultConfig).Encode
        [72, 101, 108, 108, 111, 44, 32, 70, 83, 75, 33]).1.length = 21120) := by
  have hb : ∀ b ∈ ([72, 101, 108, 108, 111, 44, 32, 70, 83, 75, 33] : List ℕ), b < 256 := by
    decide
  obtain ⟨h1, h2⟩ := C1_roundtrip [72, 101, 108, 108, 111, 44, 32, 70, 83, 75, 33] hb
  refine ⟨hb, h1, ?_⟩
  rw [h2]
  rfl
